import Mathlib

/-!
Verification development for the tiramiss build scripts: a shallow
embedding of `make-tiramiss.ts`, `utils/proc.ts` and `utils/git.ts`
(process executor, git command facade, topic resolver, integration
engine for the merge / pick / squash modes, and the pipeline
coordinator), together with theorems about the behaviour of each part.

Commits are modelled as nodes of a DAG identified by creation-ordered
natural numbers: a commit's parents always have strictly smaller ids.
Content-level git behaviour (result trees of merges and cherry-picks,
and whether an operation conflicts) is delegated to an oracle
environment, mirroring the scripts' delegation to the external git
binary.
-/

namespace Tiramiss

/-- One output event of a running child process: a chunk arriving on
stdout or on stderr (the `data` handlers in `proc.ts` / the inline
`run` of `make-tiramiss.ts`). -/
inductive ProcEvent where
  | stdout (s : String)
  | stderr (s : String)
deriving Repr, DecidableEq

/-- A live pass-through write performed by the executor on the parent
process's own stdout / stderr while the child runs. -/
inductive LiveWrite where
  | toStdout (s : String)
  | toStderr (s : String)
deriving Repr, DecidableEq

/-- Result shape of the executor (`RunResult` in `proc.ts`): exit code,
accumulated stdout, accumulated stderr. -/
structure RunResult where
  code : Int
  out : String
  err : String
deriving Repr, DecidableEq

/-- Accumulate the child's output events in arrival order, returning
(stdout buffer, stderr buffer, live pass-through writes).  When `quiet`
is set no live write is emitted, but the buffers still accumulate. -/
def collect (quiet : Bool) : List ProcEvent → String × String × List LiveWrite
  | [] => ("", "", [])
  | ProcEvent.stdout s :: rest =>
    let a := collect quiet rest
    (s ++ a.1, a.2.1, (if quiet then [] else [LiveWrite.toStdout s]) ++ a.2.2)
  | ProcEvent.stderr s :: rest =>
    let a := collect quiet rest
    (a.1, s ++ a.2.1, (if quiet then [] else [LiveWrite.toStderr s]) ++ a.2.2)

/-- The stdout text accumulated from a list of events. -/
def outOf : List ProcEvent → String
  | [] => ""
  | ProcEvent.stdout s :: rest => s ++ outOf rest
  | ProcEvent.stderr _ :: rest => outOf rest

/-- The stderr text accumulated from a list of events. -/
def errOf : List ProcEvent → String
  | [] => ""
  | ProcEvent.stdout _ :: rest => errOf rest
  | ProcEvent.stderr s :: rest => s ++ errOf rest

/-- The live pass-through writes produced when `quiet` is off. -/
def liveOf : List ProcEvent → List LiveWrite
  | [] => []
  | ProcEvent.stdout s :: rest => LiveWrite.toStdout s :: liveOf rest
  | ProcEvent.stderr s :: rest => LiveWrite.toStderr s :: liveOf rest

/-- The process executor `run` (`proc.ts`, and the inline copy in
`make-tiramiss.ts`): spawns the command, accumulates stdout/stderr
chunks (echoing them live unless `quiet`), and on the `close` event
resolves with `{ code: code ?? 0, out, err }`.  A nonzero exit code is
data, never an exception: the function is total and the result is
returned for every close code.  The JS `code` is `number | null`
(null when the child was killed by a signal), modelled as
`Option Int`. -/
def run (events : List ProcEvent) (closeCode : Option Int) (quiet : Bool) :
    RunResult × List LiveWrite :=
  let a := collect quiet events
  ({ code := closeCode.getD 0, out := a.1, err := a.2.1 }, a.2.2)

/-- Whitespace for the model of JavaScript's `String.trim` on the
output git actually produces (space, tab, LF, CR). -/
def isWS (ch : Char) : Bool :=
  ch = Char.ofNat 32 ∨ ch = Char.ofNat 9 ∨ ch = Char.ofNat 10 ∨ ch = Char.ofNat 13

/-- Model of `s.trim()`: strip leading and trailing whitespace. -/
def trimStr (s : String) : String :=
  String.mk (((s.data.dropWhile isWS).reverse.dropWhile isWS).reverse)

/-- Model of JavaScript `args.join(" ")`. -/
def joinArgs : List String → String
  | [] => ""
  | [a] => a
  | a :: rest => a ++ " " ++ joinArgs rest

/-- The assertive git facade (`git` in `utils/git.ts` and in
`make-tiramiss.ts`), applied to the executor's result for
`git <args>`: throws (models: returns `Except.error`) a message
embedding the command line and the captured stderr when the exit code
is nonzero, and returns the trimmed stdout otherwise. -/
def git (args : List String) (r : RunResult) : Except String String :=
  if r.code ≠ 0 then
    Except.error ("git " ++ joinArgs args ++ " failed:\n" ++ r.err)
  else Except.ok (trimStr r.out)

/-- The probe facade (`gitOk`): never throws, returns `true` exactly
when the exit code is zero. -/
def gitOk (r : RunResult) : Bool := r.code == 0

theorem collect_fst (quiet : Bool) :
    ∀ events : List ProcEvent, (collect quiet events).1 = outOf events := by
  intro events
  induction events with
  | nil => rfl
  | cons ev rest ih =>
    cases ev with
    | stdout s => simp [collect, outOf, ih]
    | stderr s => simp [collect, outOf, ih]

theorem collect_snd_fst (quiet : Bool) :
    ∀ events : List ProcEvent, (collect quiet events).2.1 = errOf events := by
  intro events
  induction events with
  | nil => rfl
  | cons ev rest ih =>
    cases ev with
    | stdout s => simp [collect, errOf, ih]
    | stderr s => simp [collect, errOf, ih]

theorem collect_quiet_live :
    ∀ events : List ProcEvent, (collect true events).2.2 = [] := by
  intro events
  induction events with
  | nil => rfl
  | cons ev rest ih =>
    cases ev with
    | stdout s => simp [collect, ih]
    | stderr s => simp [collect, ih]

theorem collect_loud_live :
    ∀ events : List ProcEvent, (collect false events).2.2 = liveOf events := by
  intro events
  induction events with
  | nil => rfl
  | cons ev rest ih =>
    cases ev with
    | stdout s => simp [collect, liveOf, ih]
    | stderr s => simp [collect, liveOf, ih]

/-- Claim C9: for every command invocation the executor `run` returns
the structured result `{exitCode, stdout, stderr}` — the exit code is
data taken from the close event (`code ?? 0`) for every exit code,
nonzero included, and no exception path exists; with the quiet flag
set the live pass-through of the child's output is suppressed (no live
writes) while the returned stdout and stderr strings still contain the
full captured output (they are independent of the quiet flag). -/
theorem run_executor_spec (events : List ProcEvent) (closeCode : Option Int) (quiet : Bool) :
    (run events closeCode quiet).1.code = closeCode.getD 0 ∧
    (run events closeCode quiet).1.out = outOf events ∧
    (run events closeCode quiet).1.err = errOf events ∧
    (run events closeCode true).2 = [] ∧
    (run events closeCode false).2 = liveOf events := by
  refine ⟨rfl, ?_, ?_, ?_, ?_⟩
  · exact collect_fst quiet events
  · exact collect_snd_fst quiet events
  · exact collect_quiet_live events
  · exact collect_loud_live events

/-- Claim C10: when the child's close event reports a `null` exit code
(signal-terminated child), `run` resolves with exit code `0`
(`code ?? 0`), so callers treat the command as having succeeded: the
probe `gitOk` returns `true` and the assertive `git` returns the
trimmed stdout instead of failing. -/
theorem run_null_exit_code_spec (events : List ProcEvent) (quiet : Bool) :
    (run events none quiet).1.code = 0 ∧
    gitOk (run events none quiet).1 = true ∧
    ∀ args : List String,
      git args (run events none quiet).1 = Except.ok (trimStr (run events none quiet).1.out) := by
  refine ⟨rfl, rfl, ?_⟩
  intro args
  rfl

/-- Claim C8: the assertive facade `git` fails with an error embedding
the command line and the captured stderr exactly when the exit code is
nonzero, returns the trimmed stdout when it is zero; the probe `gitOk`
never throws (it is a total boolean function) and returns `true`
exactly when the exit code is zero. -/
theorem git_facade_spec (args : List String) (r : RunResult) :
    (r.code ≠ 0 → git args r = Except.error ("git " ++ joinArgs args ++ " failed:\n" ++ r.err)) ∧
    (r.code = 0 → git args r = Except.ok (trimStr r.out)) ∧
    (gitOk r = true ↔ r.code = 0) := by
  refine ⟨?_, ?_, ?_⟩
  · intro h
    simp [git, h]
  · intro h
    simp [git, h]
  · simp [gitOk]

theorem git_facade_spec_witness :
    git (["status"]) { code := 1, out := "", err := "boom" }
        = Except.error ("git status failed:\nboom") ∧
    git (["status"]) { code := 0, out := " ok ", err := "" } = Except.ok ("ok") ∧
    gitOk { code := 0, out := "", err := "" } = true := by
  refine ⟨?_, ?_, ?_⟩
  · exact (git_facade_spec (["status"]) { code := 1, out := "", err := "boom" }).1 (by decide)
  · exact (git_facade_spec (["status"]) { code := 0, out := " ok ", err := "" }).2.1 rfl
  · exact (git_facade_spec (["status"]) { code := 0, out := "", err := "" }).2.2.mpr rfl

/-! ## Repository model

A commit DAG with creation-ordered ids.  `parentsOf` filters parents
to smaller ids: on well-formed repositories (parents created before
their children, as git guarantees) the filter is the identity, and it
makes reachability structurally computable. -/

/-- An immutable commit: parent links, an opaque tree (content) id,
the subject line and the remaining message paragraphs. -/
structure Commit where
  parents : List Nat
  tree : Nat
  summary : String
  body : List String
deriving Repr, DecidableEq, Inhabited

/-- Repository state: the commits in creation order (commit `i` is
`commits[i]`), the ref table (what `git rev-parse --verify <ref>^\x7bcommit\x7d`
resolves), and the current branch tip (`HEAD`). -/
structure Repo where
  commits : List Commit
  refs : List (String × Nat)
  head : Nat
deriving Repr, DecidableEq

/-- Ref resolution (`rev` / `gitOk rev-parse --verify` in the source):
`none` models a nonzero exit of `rev-parse`. -/
def Repo.resolve (r : Repo) (s : String) : Option Nat := r.refs.lookup s

/-- The commit stored at id `c` (an out-of-range id yields the default
commit; all operations below are used within range). -/
def Repo.commitOf (r : Repo) (c : Nat) : Commit := r.commits.getD c default

/-- The tree (content) id of commit `c`. -/
def Repo.treeOf (r : Repo) (c : Nat) : Nat := (r.commitOf c).tree

/-- Parents of commit `c`, restricted to smaller ids (identity on
well-formed repositories). -/
def Repo.parentsOf (r : Repo) (c : Nat) : List Nat :=
  (r.commitOf c).parents.filter (fun p => p < c)

/-- Reachability with explicit fuel; `fuel = b` is always enough since
parents have strictly smaller ids. -/
def isAncestorFuel (r : Repo) : Nat → Nat → Nat → Bool
  | 0, a, b => a == b
  | fuel + 1, a, b => a == b || (r.parentsOf b).any (fun p => isAncestorFuel r fuel a p)

/-- `git merge-base --is-ancestor a b`: commit `a` is reachable from
`b` by parent links (or equal to it). -/
def isAncestor (r : Repo) (a b : Nat) : Bool := isAncestorFuel r b a b

/-- `git merge-base a b`: a best common ancestor.  Modelled as the
largest-id common ancestor (ids are creation-ordered, so this is a
concrete deterministic choice of best common ancestor); `none` models
a nonzero exit (no common ancestor). -/
def mergeBase (r : Repo) (a b : Nat) : Option Nat :=
  ((List.range r.commits.length).filter
    (fun c => isAncestor r c a && isAncestor r c b)).max?

/-- `git rev-list --reverse --ancestry-path base..tip` (`listCommits`
in the source): the commits strictly after `base` up to and including
`tip`, restricted to the ancestry path between them, oldest first
(ids are creation-ordered, so ascending id order is oldest-first
topological order). -/
def listCommits (r : Repo) (base tip : Nat) : List Nat :=
  (List.range r.commits.length).filter
    (fun c => isAncestor r c tip && !(isAncestor r c base) && isAncestor r base c)

/-- Append a new commit (it receives the next id). -/
def Repo.snoc (r : Repo) (c : Commit) : Repo := { r with commits := r.commits ++ [c] }

/-- Move the current tip (`git reset --hard` / `git switch -C`). -/
def Repo.setHead (r : Repo) (h : Nat) : Repo := { r with head := h }

/-- Create a commit and advance the tip to it — the effect of
`git commit` / `git cherry-pick` / `git merge` on the current
branch. -/
def Repo.addCommit (r : Repo) (c : Commit) : Repo := (r.snoc c).setHead r.commits.length

/-- Error message of `resolveTopicRef` (the "topic not found" error,
naming the raw string). -/
def notFoundMsg (topic : String) : String := "見つからないブランチ: " ++ topic

/-- The topic resolver (`resolveTopicRef`): try the raw string
verbatim, then `origin/<name>`, then `upstream/<name>`, returning the
first candidate that resolves; fail naming the raw string when none
does. -/
def resolveTopicRef (r : Repo) (topic : String) : Except String String :=
  if (r.resolve topic).isSome then Except.ok topic
  else if (r.resolve ("origin/" ++ topic)).isSome then Except.ok ("origin/" ++ topic)
  else if (r.resolve ("upstream/" ++ topic)).isSome then Except.ok ("upstream/" ++ topic)
  else Except.error (notFoundMsg topic)

/-- Claim C5: the resolver tries the raw topic string verbatim first;
if it does not resolve it tries the fixed remote prefixes in priority
order — `origin` first, then `upstream` — and returns the first
candidate that resolves (never a later-priority one when an earlier
one also resolves); when no candidate resolves it fails with the
"topic not found" error naming the raw string. -/
theorem resolveTopicRef_spec (r : Repo) (topic : String) :
    ((r.resolve topic).isSome →
      resolveTopicRef r topic = Except.ok topic) ∧
    ((r.resolve topic).isSome = false → (r.resolve ("origin/" ++ topic)).isSome →
      resolveTopicRef r topic = Except.ok ("origin/" ++ topic)) ∧
    ((r.resolve topic).isSome = false → (r.resolve ("origin/" ++ topic)).isSome = false →
      (r.resolve ("upstream/" ++ topic)).isSome →
      resolveTopicRef r topic = Except.ok ("upstream/" ++ topic)) ∧
    ((r.resolve topic).isSome = false → (r.resolve ("origin/" ++ topic)).isSome = false →
      (r.resolve ("upstream/" ++ topic)).isSome = false →
      resolveTopicRef r topic = Except.error (notFoundMsg topic)) := by
  refine ⟨?_, ?_, ?_, ?_⟩
  · intro h1
    simp [resolveTopicRef, h1]
  · intro h1 h2
    simp [resolveTopicRef, h1, h2]
  · intro h1 h2 h3
    simp [resolveTopicRef, h1, h2, h3]
  · intro h1 h2 h3
    simp [resolveTopicRef, h1, h2, h3]

/-- Concrete repository for the verbatim branch of the resolver
witness. -/
def resolverRepoA : Repo :=
  { commits := [], refs := [("x", 5)], head := 0 }

/-- Concrete repository where both `origin/x` and `upstream/x` exist
but the bare name does not. -/
def resolverRepoB : Repo :=
  { commits := [], refs := [("origin/x", 1), ("upstream/x", 2)], head := 0 }

/-- Concrete repository where only `upstream/x` exists. -/
def resolverRepoC : Repo :=
  { commits := [], refs := [("upstream/x", 2)], head := 0 }

/-- Concrete repository with no matching ref at all. -/
def resolverRepoD : Repo :=
  { commits := [], refs := [("other", 3)], head := 0 }

theorem resolveTopicRef_spec_witness :
    resolveTopicRef resolverRepoA ("x") = Except.ok ("x") ∧
    resolveTopicRef resolverRepoB ("x") = Except.ok ("origin/x") ∧
    resolveTopicRef resolverRepoC ("x") = Except.ok ("upstream/x") ∧
    resolveTopicRef resolverRepoD ("x") = Except.error (notFoundMsg ("x")) := by
  refine ⟨?_, ?_, ?_, ?_⟩
  · exact (resolveTopicRef_spec resolverRepoA ("x")).1 (by decide)
  · exact (resolveTopicRef_spec resolverRepoB ("x")).2.1 (by decide) (by decide)
  · exact (resolveTopicRef_spec resolverRepoC ("x")).2.2.1 (by decide) (by decide) (by decide)
  · exact (resolveTopicRef_spec resolverRepoD ("x")).2.2.2 (by decide) (by decide) (by decide)

/-! ## Integration engine

State-passing embedding of `applyMerge` / `applyPick` / `applySquash`.
Errors carry the repository state at the moment of failure: the
scripts throw without undoing anything, leaving the repository exactly
where the last successful step put it. -/

/-- The combination strategy, fixed for a whole run (`MODE`). -/
inductive Mode where
  | merge
  | pick
  | squash
deriving Repr, DecidableEq

/-- Oracles for the content-level git behaviour the scripts delegate:
whether an operation conflicts at a given tip, and the tree produced
by a successful merge / cherry-pick. -/
structure Gitenv where
  pickConflict : Nat → Nat → Bool
  mergeConflict : Nat → Nat → Bool
  squashConflict : Nat → Nat → Bool
  pickedTree : Nat → Nat → Nat
  mergedTree : Nat → Nat → Nat

/-- All conflict oracles answer `false`. -/
def Gitenv.conflictFree (g : Gitenv) : Prop :=
  (∀ c h, g.pickConflict c h = false) ∧
  (∀ t h, g.mergeConflict t h = false) ∧
  (∀ t h, g.squashConflict t h = false)

/-- An ASCII apostrophe (avoids quoting issues in message literals). -/
def sq : String := String.singleton (Char.ofNat 39)

/-- The probe `gitOk ["merge-base", "--is-ancestor", topic, "HEAD"]`:
false when the topic does not resolve (the probe swallows the
failure). -/
def isAncestorRef (r : Repo) (topic : String) (b : Nat) : Bool :=
  match r.resolve topic with
  | some t => isAncestor r t b
  | none => false

/-- `mergeBase` on two refs (the assertive `git merge-base a b`):
`none` models the assertive failure (unresolvable ref or no common
ancestor). -/
def mergeBaseRef (r : Repo) (x y : String) : Option Nat :=
  match r.resolve x, r.resolve y with
  | some a, some b => mergeBase r a b
  | _, _ => none

/-- Assertive-failure message of a conflicting `git merge --no-ff`
(stderr content is not modelled for merge conflicts). -/
def mergeFailMsg (topic : String) : String := "git merge --no-ff " ++ topic ++ " failed:\n"

/-- `applyMerge`: skip when the topic is already an ancestor of the
tip; otherwise perform a non-fast-forward merge, creating a merge
commit with two parents (conflict is an assertive failure leaving the
state untouched mid-merge). -/
def applyMerge (g : Gitenv) (r : Repo) (topic : String) : Except (String × Repo) Repo :=
  if isAncestorRef r topic r.head then Except.ok r
  else
    match r.resolve topic with
    | none => Except.error (mergeFailMsg topic, r)
    | some t =>
      if g.mergeConflict t r.head then Except.error (mergeFailMsg topic, r)
      else Except.ok (r.addCommit
        { parents := [r.head, t]
          tree := g.mergedTree (r.treeOf t) (r.treeOf r.head)
          summary := "Merge " ++ topic
          body := [] })

/-- The message `applyPick` throws on a cherry-pick conflict (the
source replaces the underlying git error with this fixed guidance). -/
def pickConflictMsg : String :=
  "cherry-pick コンフリクト。解決後 " ++ sq ++ "git add -A && git cherry-pick --continue" ++ sq
    ++ " を実行し、再実行してください。"

/-- The traceability trailer `git cherry-pick -x` appends to the
replayed commit's message. -/
def trailer (c : Nat) : String := "(cherry picked from commit " ++ toString c ++ ")"

/-- One `git cherry-pick -x c` onto the current tip: a new commit
whose single parent is the tip, carrying the source commit's message
plus the traceability trailer. -/
def cherryPickOne (g : Gitenv) (r : Repo) (c : Nat) : Repo :=
  r.addCommit
    { parents := [r.head]
      tree := g.pickedTree (r.treeOf c) (r.treeOf r.head)
      summary := (r.commitOf c).summary
      body := (r.commitOf c).body ++ [trailer c] }

/-- The replay loop of `applyPick` (`for (const c of commits)`): on a
conflict, abort immediately with the fixed message, leaving the
commits already replayed in place (no abort / skip is issued). -/
def pickLoop (g : Gitenv) : List Nat → Repo → Except (String × Repo) Repo
  | [], r => Except.ok r
  | c :: rest, r =>
    if g.pickConflict c r.head then Except.error (pickConflictMsg, r)
    else pickLoop g rest (cherryPickOne g r c)

/-- Failure message when `applyPick` cannot obtain a merge base. -/
def mergeBaseFailMsg (topic baseRef : String) : String :=
  "merge-base 取得失敗: " ++ topic ++ " vs " ++ baseRef

/-- `applyPick`: skip when already an ancestor of the tip; otherwise
compute `base = mergeBase(topic, baseRef)`, enumerate the commits
strictly after `base` up to the topic (oldest first, ancestry path),
no-op when empty, otherwise replay them in order. -/
def applyPick (g : Gitenv) (r : Repo) (topic baseRef : String) : Except (String × Repo) Repo :=
  if isAncestorRef r topic r.head then Except.ok r
  else
    match mergeBaseRef r topic baseRef, r.resolve topic with
    | some base, some t =>
      let commits := listCommits r base t
      if commits.isEmpty then Except.ok r
      else pickLoop g commits r
    | _, _ => Except.error (mergeBaseFailMsg topic baseRef, r)

/-- The message `applySquash` throws on a squash-merge conflict. -/
def squashConflictMsg : String :=
  "squash コンフリクト。解決後 " ++ sq ++ "git commit" ++ sq ++ " して再実行してください。"

/-- Assertive-failure message of `git merge-base HEAD topic`. -/
def squashMergeBaseFailMsg (topic : String) : String :=
  "git merge-base HEAD " ++ topic ++ " failed:\n"

/-- The final path segment of a ref, modelling
`topic.split("/").pop() ?? topic`: the characters after the last
slash (the whole string when it has no slash). -/
def shortName (topic : String) : String :=
  String.mk (((topic.data.reverse).takeWhile (fun ch => ch ≠ Char.ofNat 47)).reverse)

/-- First message line of a squash commit:
`squash(<short-topic-name>): <topic-subject>`. -/
def squashSubject (topic subj : String) : String :=
  "squash(" ++ shortName topic ++ "): " ++ subj

/-- Body line of a squash commit, naming the source topic. -/
def squashBody (topic : String) : String := "Squashed from " ++ sq ++ topic ++ sq

/-- `applySquash`: compute `common = mergeBase(HEAD, topic)`; skip
when the tree diff `common..topic` is empty (`git diff --quiet` exits
zero exactly when the two trees coincide); otherwise squash-stage the
topic (conflict leaves the staged state in place) and create exactly
one commit whose subject is derived from the topic's latest summary
line. -/
def applySquash (g : Gitenv) (r : Repo) (topic : String) : Except (String × Repo) Repo :=
  match r.resolve topic with
  | none => Except.error (squashMergeBaseFailMsg topic, r)
  | some t =>
    match mergeBase r r.head t with
    | none => Except.error (squashMergeBaseFailMsg topic, r)
    | some common =>
      if r.treeOf common == r.treeOf t then Except.ok r
      else if g.squashConflict t r.head then Except.error (squashConflictMsg, r)
      else Except.ok (r.addCommit
        { parents := [r.head]
          tree := g.mergedTree (r.treeOf t) (r.treeOf r.head)
          summary := squashSubject topic (r.commitOf t).summary
          body := [squashBody topic] })

/-- One iteration of the topic loop (`for (const raw of topics)`):
resolve the raw topic name, then dispatch on the mode. -/
def applyTopic (g : Gitenv) (mode : Mode) (baseRef : String) (r : Repo) (raw : String) :
    Except (String × Repo) Repo :=
  match resolveTopicRef r raw with
  | Except.error e => Except.error (e, r)
  | Except.ok topic =>
    match mode with
    | Mode.merge => applyMerge g r topic
    | Mode.pick => applyPick g r topic baseRef
    | Mode.squash => applySquash g r topic

/-- The whole topic loop, in list order; the first failure halts the
run (subsequent topics are not attempted). -/
def applyTopics (g : Gitenv) (mode : Mode) (baseRef : String) :
    List String → Repo → Except (String × Repo) Repo
  | [], r => Except.ok r
  | raw :: rest, r =>
    match applyTopic g mode baseRef r raw with
    | Except.error e => Except.error e
    | Except.ok r' => applyTopics g mode baseRef rest r'

/-! ## DAG lemmas -/

theorem listAnyCongr {α : Type} (l : List α) (p q : α → Bool) (h : ∀ x ∈ l, p x = q x) :
    l.any p = l.any q := by
  induction l with
  | nil => rfl
  | cons x xs ih =>
    simp only [List.any_cons]
    rw [h x (by simp), ih (fun y hy => h y (by simp [hy]))]

theorem parentsOf_mem_lt (r : Repo) (c p : Nat) (h : p ∈ r.parentsOf c) : p < c := by
  have := List.of_mem_filter h
  simpa using this

theorem parentsOf_zero (r : Repo) : r.parentsOf 0 = [] := by
  apply List.filter_eq_nil_iff.mpr
  intro p _
  simp

theorem isAncestorFuel_congr (r r' : Repo) (h : r.commits = r'.commits) :
    ∀ f a b, isAncestorFuel r f a b = isAncestorFuel r' f a b := by
  intro f
  induction f with
  | zero => intro a b; rfl
  | succ f ih =>
    intro a b
    have hp : r.parentsOf b = r'.parentsOf b := by
      unfold Repo.parentsOf Repo.commitOf
      rw [h]
    simp only [isAncestorFuel, hp]
    congr 1
    exact listAnyCongr _ _ _ (fun p _ => ih a p)

theorem isAncestorFuel_le (r : Repo) :
    ∀ f a b, isAncestorFuel r f a b = true → a ≤ b := by
  intro f
  induction f with
  | zero =>
    intro a b h
    simp only [isAncestorFuel, beq_iff_eq] at h
    omega
  | succ f ih =>
    intro a b h
    simp only [isAncestorFuel, Bool.or_eq_true, List.any_eq_true] at h
    rcases h with h | ⟨p, hp, hap⟩
    · exact Nat.le_of_eq (by simpa using h)
    · have h1 := parentsOf_mem_lt r b p hp
      have h2 := ih a p hap
      omega

theorem isAncestorFuel_mono (r : Repo) :
    ∀ f g a b, b ≤ f → b ≤ g → isAncestorFuel r f a b = isAncestorFuel r g a b := by
  intro f
  induction f with
  | zero =>
    intro g a b hbf hbg
    have hb : b = 0 := Nat.le_zero.mp hbf
    subst hb
    cases g with
    | zero => rfl
    | succ g => simp [isAncestorFuel, parentsOf_zero]
  | succ f ih =>
    intro g a b hbf hbg
    cases g with
    | zero =>
      have hb : b = 0 := Nat.le_zero.mp hbg
      subst hb
      simp [isAncestorFuel, parentsOf_zero]
    | succ g =>
      simp only [isAncestorFuel]
      congr 1
      apply listAnyCongr
      intro p hp
      have hpb := parentsOf_mem_lt r b p hp
      exact ih g a p (by omega) (by omega)

theorem isAncestor_fuel (r : Repo) (f a b : Nat) (h : b ≤ f) :
    isAncestorFuel r f a b = isAncestor r a b :=
  isAncestorFuel_mono r f b a b h (Nat.le_refl b)

theorem isAncestor_le (r : Repo) (a b : Nat) (h : isAncestor r a b = true) : a ≤ b :=
  isAncestorFuel_le r b a b h

theorem isAncestor_refl (r : Repo) (a : Nat) : isAncestor r a a = true := by
  cases a with
  | zero => rfl
  | succ n => simp [isAncestor, isAncestorFuel]

theorem isAncestor_congr (r r' : Repo) (h : r.commits = r'.commits) (a b : Nat) :
    isAncestor r a b = isAncestor r' a b := by
  unfold isAncestor
  rw [isAncestorFuel_congr r r' h]

/-- `r` extends `r0`: same refs, and the commit store of `r0` is an
initial segment of that of `r`.  Every operation of the engine only
ever appends commits, so states reached later in a run extend earlier
ones. -/
def Extends (r0 r : Repo) : Prop :=
  r0.commits.length ≤ r.commits.length ∧ r0.refs = r.refs ∧
  ∀ i, i < r0.commits.length → r.commits.getD i default = r0.commits.getD i default

theorem Extends.refl (r : Repo) : Extends r r :=
  ⟨Nat.le_refl _, rfl, fun _ _ => rfl⟩

theorem Extends.trans {r0 r1 r2 : Repo} (h1 : Extends r0 r1) (h2 : Extends r1 r2) :
    Extends r0 r2 :=
  ⟨Nat.le_trans h1.1 h2.1, h1.2.1.trans h2.2.1,
    fun i hi => (h2.2.2 i (Nat.lt_of_lt_of_le hi h1.1)).trans (h1.2.2 i hi)⟩

theorem extends_snoc (r : Repo) (c : Commit) : Extends r (r.snoc c) := by
  refine ⟨by simp [Repo.snoc], rfl, ?_⟩
  intro i hi
  simp only [Repo.snoc]
  exact List.getD_append _ _ _ _ hi

theorem extends_setHead (r0 r : Repo) (h : Nat) (he : Extends r0 r) :
    Extends r0 (r.setHead h) := he

theorem extends_addCommit (r : Repo) (c : Commit) : Extends r (r.addCommit c) :=
  extends_snoc r c

theorem commitOf_ext {r0 r : Repo} (h : Extends r0 r) {c : Nat}
    (hc : c < r0.commits.length) : r.commitOf c = r0.commitOf c :=
  h.2.2 c hc

theorem treeOf_ext {r0 r : Repo} (h : Extends r0 r) {c : Nat}
    (hc : c < r0.commits.length) : r.treeOf c = r0.treeOf c := by
  unfold Repo.treeOf
  rw [commitOf_ext h hc]

theorem parentsOf_ext {r0 r : Repo} (h : Extends r0 r) {c : Nat}
    (hc : c < r0.commits.length) : r.parentsOf c = r0.parentsOf c := by
  unfold Repo.parentsOf
  rw [commitOf_ext h hc]

theorem resolve_ext {r0 r : Repo} (h : Extends r0 r) (s : String) :
    r.resolve s = r0.resolve s := by
  unfold Repo.resolve
  rw [← h.2.1]

theorem isAncestorFuel_ext {r0 r : Repo} (h : Extends r0 r) :
    ∀ f a b, b < r0.commits.length → isAncestorFuel r f a b = isAncestorFuel r0 f a b := by
  intro f
  induction f with
  | zero => intro a b _; rfl
  | succ f ih =>
    intro a b hb
    simp only [isAncestorFuel, parentsOf_ext h hb]
    congr 1
    apply listAnyCongr
    intro p hp
    exact ih a p (Nat.lt_trans (parentsOf_mem_lt r0 b p hp) hb)

theorem isAncestor_ext {r0 r : Repo} (h : Extends r0 r) {a b : Nat}
    (hb : b < r0.commits.length) : isAncestor r a b = isAncestor r0 a b :=
  isAncestorFuel_ext h b a b hb

theorem isAncestor_false_of_ge (r : Repo) {a b : Nat} (h : b < a) :
    isAncestor r a b = false := by
  cases hx : isAncestor r a b
  · rfl
  · exact absurd (isAncestor_le r a b hx) (by omega)

theorem mergeBase_ext {r0 r : Repo} (h : Extends r0 r) {a b : Nat}
    (ha : a < r0.commits.length) (hb : b < r0.commits.length) :
    mergeBase r a b = mergeBase r0 a b := by
  unfold mergeBase
  have hle := h.1
  have hsplit : r.commits.length = r0.commits.length + (r.commits.length - r0.commits.length) := by
    omega
  rw [hsplit, List.range_add, List.filter_append]
  have h2 : (List.filter (fun c => isAncestor r c a && isAncestor r c b)
      (List.map (fun x => r0.commits.length + x)
        (List.range (r.commits.length - r0.commits.length)))) = [] := by
    apply List.filter_eq_nil_iff.mpr
    intro x hx
    rcases List.mem_map.mp hx with ⟨i, _, rfl⟩
    have : isAncestor r (r0.commits.length + i) a = false :=
      isAncestor_false_of_ge r (by omega)
    simp [this]
  rw [h2, List.append_nil]
  congr 1
  apply List.filter_congr
  intro c hc
  have hcn : c < r0.commits.length := List.mem_range.mp hc
  rw [isAncestor_ext h ha, isAncestor_ext h hb]

theorem listCommits_ext {r0 r : Repo} (h : Extends r0 r) {base tip : Nat}
    (hb : base < r0.commits.length) (ht : tip < r0.commits.length) :
    listCommits r base tip = listCommits r0 base tip := by
  unfold listCommits
  have hle := h.1
  have hsplit : r.commits.length = r0.commits.length + (r.commits.length - r0.commits.length) := by
    omega
  rw [hsplit, List.range_add, List.filter_append]
  have h2 : (List.filter
      (fun c => isAncestor r c tip && !(isAncestor r c base) && isAncestor r base c)
      (List.map (fun x => r0.commits.length + x)
        (List.range (r.commits.length - r0.commits.length)))) = [] := by
    apply List.filter_eq_nil_iff.mpr
    intro x hx
    rcases List.mem_map.mp hx with ⟨i, _, rfl⟩
    have : isAncestor r (r0.commits.length + i) tip = false :=
      isAncestor_false_of_ge r (by omega)
    simp [this]
  rw [h2, List.append_nil]
  apply List.filter_congr
  intro c hc
  have hcn : c < r0.commits.length := List.mem_range.mp hc
  rw [isAncestor_ext h ht, isAncestor_ext h hb, isAncestor_ext h hcn]

theorem listCommits_mem_lt (r : Repo) {base tip c : Nat} (h : c ∈ listCommits r base tip) :
    c < r.commits.length := by
  unfold listCommits at h
  exact List.mem_range.mp (List.mem_of_mem_filter h)

theorem mergeBase_spec (r : Repo) {a b m : Nat} (h : mergeBase r a b = some m) :
    m < r.commits.length ∧ isAncestor r m a = true ∧ isAncestor r m b = true ∧
      m ≤ a ∧ m ≤ b := by
  unfold mergeBase at h
  have h1 := (List.max?_eq_some_iff'.mp h).1
  have h2 := List.mem_filter.mp h1
  have h3 := List.mem_range.mp h2.1
  have h4 := h2.2
  rw [Bool.and_eq_true] at h4
  exact ⟨h3, h4.1, h4.2, isAncestor_le r m a h4.1, isAncestor_le r m b h4.2⟩

theorem mergeBase_of_ancestor (r : Repo) {t b : Nat} (htn : t < r.commits.length)
    (h : isAncestor r t b = true) : mergeBase r b t = some t := by
  unfold mergeBase
  apply List.max?_eq_some_iff'.mpr
  constructor
  · apply List.mem_filter.mpr
    refine ⟨List.mem_range.mpr htn, ?_⟩
    rw [Bool.and_eq_true]
    exact ⟨h, isAncestor_refl r t⟩
  · intro c hc
    have h2 := (Bool.and_eq_true _ _).mp (List.mem_filter.mp hc).2
    exact isAncestor_le r c t h2.2

theorem commitOf_snoc_new (r : Repo) (c : Commit) :
    (r.snoc c).commitOf r.commits.length = c := by
  unfold Repo.commitOf Repo.snoc
  simp only
  rw [List.getD_eq_getElem?_getD, List.getElem?_append_right (Nat.le_refl _)]
  simp

theorem isAncestor_snoc_new (r : Repo) (c : Commit)
    (hp : ∀ p ∈ c.parents, p < r.commits.length) (a : Nat) :
    isAncestor (r.snoc c) a r.commits.length =
      ((a == r.commits.length) || c.parents.any (fun p => isAncestor r a p)) := by
  have hpar : (r.snoc c).parentsOf r.commits.length = c.parents := by
    unfold Repo.parentsOf
    rw [commitOf_snoc_new]
    apply List.filter_eq_self.mpr
    intro p hpm
    simpa using hp p hpm
  have h0 : isAncestor (r.snoc c) a r.commits.length
      = isAncestorFuel (r.snoc c) (r.commits.length + 1) a r.commits.length := by
    unfold isAncestor
    exact isAncestorFuel_mono (r.snoc c) r.commits.length (r.commits.length + 1) a
      r.commits.length (Nat.le_refl _) (Nat.le_succ _)
  rw [h0]
  simp only [isAncestorFuel, hpar]
  congr 1
  apply listAnyCongr
  intro p hpm
  have hplt : p < r.commits.length := hp p hpm
  rw [isAncestor_fuel (r.snoc c) r.commits.length a p (Nat.le_of_lt hplt)]
  exact isAncestor_ext (extends_snoc r c) hplt

/-! ## The pick replay loop -/

theorem cherryPickOne_commits (g : Gitenv) (r : Repo) (c : Nat) :
    (cherryPickOne g r c).commits.length = r.commits.length + 1 := by
  simp [cherryPickOne, Repo.addCommit, Repo.snoc, Repo.setHead]

theorem cherryPickOne_head (g : Gitenv) (r : Repo) (c : Nat) :
    (cherryPickOne g r c).head = r.commits.length := rfl

theorem cherryPickOne_extends (g : Gitenv) (r : Repo) (c : Nat) :
    Extends r (cherryPickOne g r c) :=
  extends_addCommit r _

theorem commitOf_addCommit_new (r : Repo) (c : Commit) :
    (r.addCommit c).commitOf r.commits.length = c :=
  commitOf_snoc_new r c

theorem pickLoop_spec (g : Gitenv) (hnc : ∀ c h, g.pickConflict c h = false) :
    ∀ (cs : List Nat) (r : Repo), (∀ c ∈ cs, c < r.commits.length) →
      ∃ r', pickLoop g cs r = Except.ok r' ∧
        Extends r r' ∧
        r'.commits.length = r.commits.length + cs.length ∧
        (cs = [] → r' = r) ∧
        (cs ≠ [] → r'.head = r.commits.length + cs.length - 1) ∧
        ∀ i, (hi : i < cs.length) →
          (r'.commitOf (r.commits.length + i)).parents
              = [if i = 0 then r.head else r.commits.length + i - 1] ∧
          (r'.commitOf (r.commits.length + i)).summary
              = (r.commitOf (cs.get ⟨i, hi⟩)).summary ∧
          (r'.commitOf (r.commits.length + i)).body
              = (r.commitOf (cs.get ⟨i, hi⟩)).body ++ [trailer (cs.get ⟨i, hi⟩)] := by
  intro cs
  induction cs with
  | nil =>
    intro r _
    refine ⟨r, rfl, Extends.refl r, by simp, fun _ => rfl, fun h => absurd rfl h, ?_⟩
    intro i hi
    exact absurd hi (by simp)
  | cons c rest ih =>
    intro r hb
    have hclt : c < r.commits.length := hb c (by simp)
    have hb1 : ∀ x ∈ rest, x < (cherryPickOne g r c).commits.length := by
      intro x hx
      have := hb x (by simp [hx])
      rw [cherryPickOne_commits]
      omega
    obtain ⟨r', hrun, hext, hlen, hnil, hhead, hidx⟩ := ih (cherryPickOne g r c) hb1
    have hext0 : Extends r (cherryPickOne g r c) := cherryPickOne_extends g r c
    have hr1len : (cherryPickOne g r c).commits.length = r.commits.length + 1 :=
      cherryPickOne_commits g r c
    refine ⟨r', ?_, hext0.trans hext, ?_, by simp, ?_, ?_⟩
    · simp only [pickLoop, hnc c r.head]
      exact hrun
    · rw [hlen, hr1len]
      simp
      omega
    · intro _
      by_cases hrest : rest = []
      · subst hrest
        have := hnil rfl
        subst this
        rw [cherryPickOne_head]
        simp
      · have := hhead hrest
        rw [this, hr1len]
        have : rest.length ≠ 0 := fun h => hrest (List.length_eq_zero.mp h)
        simp only [List.length_cons]
        omega
    · intro i hi
      cases i with
      | zero =>
        have hlt : r.commits.length < (cherryPickOne g r c).commits.length := by
          rw [hr1len]; omega
        have hC : r'.commitOf (r.commits.length + 0)
            = (cherryPickOne g r c).commitOf r.commits.length := by
          rw [Nat.add_zero]
          exact commitOf_ext hext hlt
        have hnew : (cherryPickOne g r c).commitOf r.commits.length
            = { parents := [r.head]
                tree := g.pickedTree (r.treeOf c) (r.treeOf r.head)
                summary := (r.commitOf c).summary
                body := (r.commitOf c).body ++ [trailer c] } :=
          commitOf_addCommit_new r _
        rw [hC, hnew]
        refine ⟨by simp, by simp, by simp⟩
      | succ j =>
        have hj : j < rest.length := by
          simp only [List.length_cons] at hi
          omega
        have hsh : r.commits.length + (j + 1) = (cherryPickOne g r c).commits.length + j := by
          rw [hr1len]; omega
        obtain ⟨hp1, hp2, hp3⟩ := hidx j hj
        have hrg : rest.get ⟨j, hj⟩ < r.commits.length := hb _ (by simp [List.get_mem])
        have hcom : (cherryPickOne g r c).commitOf (rest.get ⟨j, hj⟩)
            = r.commitOf (rest.get ⟨j, hj⟩) := commitOf_ext hext0 hrg
        have hgets : (c :: rest).get ⟨j + 1, hi⟩ = rest.get ⟨j, hj⟩ := rfl
        refine ⟨?_, ?_, ?_⟩
        · rw [hsh, hp1, cherryPickOne_head]
          by_cases hj0 : j = 0
          · subst hj0
            simp [hr1len]
          · rw [if_neg hj0, if_neg (by omega : ¬j + 1 = 0)]
        · rw [hsh, hp2, hcom, hgets]
        · rw [hsh, hp3, hcom, hgets]

/-- Claim C1: in pick mode, for a topic that is not already an
ancestor of the current tip, with `base = mergeBase(topic, BASE_REF)`
computed, the engine enumerates `listCommits base topic` (the commits
strictly after `base` up to and including the topic, oldest first, on
the ancestry path); when that list is empty the topic is a no-op, and
otherwise (absent conflicts) each of the `n` listed commits is
replayed onto the current tip in order — exactly `n` new commits, each
with the previous tip as sole parent, carrying the source commit's
message plus the cherry-pick traceability trailer. -/
theorem applyPick_replays_slice (g : Gitenv) (r : Repo) (topic baseRef : String)
    (t base : Nat)
    (hnc : ∀ c h, g.pickConflict c h = false)
    (ht : r.resolve topic = some t)
    (hna : isAncestorRef r topic r.head = false)
    (hmb : mergeBaseRef r topic baseRef = some base) :
    (listCommits r base t = [] → applyPick g r topic baseRef = Except.ok r) ∧
    (listCommits r base t ≠ [] →
      ∃ r', applyPick g r topic baseRef = Except.ok r' ∧
        r'.commits.length = r.commits.length + (listCommits r base t).length ∧
        r'.head = r.commits.length + (listCommits r base t).length - 1 ∧
        ∀ i, (hi : i < (listCommits r base t).length) →
          (r'.commitOf (r.commits.length + i)).parents
              = [if i = 0 then r.head else r.commits.length + i - 1] ∧
          (r'.commitOf (r.commits.length + i)).summary
              = (r.commitOf ((listCommits r base t).get ⟨i, hi⟩)).summary ∧
          (r'.commitOf (r.commits.length + i)).body
              = (r.commitOf ((listCommits r base t).get ⟨i, hi⟩)).body
                  ++ [trailer ((listCommits r base t).get ⟨i, hi⟩)]) := by
  have hred : applyPick g r topic baseRef =
      (if (listCommits r base t).isEmpty then Except.ok r
       else pickLoop g (listCommits r base t) r) := by
    unfold applyPick
    rw [hna, hmb, ht]
    simp
  constructor
  · intro hemp
    rw [hred, hemp]
    simp
  · intro hne
    have hemp : (listCommits r base t).isEmpty = false := by
      cases hx : listCommits r base t with
      | nil => exact absurd hx hne
      | cons a l => rfl
    rw [hred, hemp]
    simp only [Bool.false_eq_true, if_false]
    obtain ⟨r', hrun, _, hlen, _, hhead, hidx⟩ :=
      pickLoop_spec g hnc (listCommits r base t) r
        (fun c hc => listCommits_mem_lt r hc)
    exact ⟨r', hrun, hlen, hhead hne, hidx⟩

/-- Conflict-free oracle environment used by the concrete examples
(merges and picks succeed; result trees are irrelevant to the
properties checked). -/
def noConflictEnv : Gitenv :=
  { pickConflict := fun _ _ => false
    mergeConflict := fun _ _ => false
    squashConflict := fun _ _ => false
    pickedTree := fun a _ => a
    mergedTree := fun a _ => a }

/-- Concrete repository for the pick witness: root commit 0 (= base),
topic 2 with the two-commit chain 1 → 2 on top of the root. -/
def pickRepo : Repo :=
  { commits :=
      [ { parents := [], tree := 0, summary := "root", body := [] }
      , { parents := [0], tree := 1, summary := "A", body := [] }
      , { parents := [1], tree := 2, summary := "B", body := [] } ]
    refs := [("base", 0), ("t", 2)]
    head := 0 }

theorem applyPick_replays_slice_witness :
    listCommits pickRepo 0 2 ≠ [] ∧
    (∃ r', applyPick noConflictEnv pickRepo ("t") ("base") = Except.ok r' ∧
      r'.commits.length = pickRepo.commits.length + (listCommits pickRepo 0 2).length ∧
      r'.head = pickRepo.commits.length + (listCommits pickRepo 0 2).length - 1 ∧
      ∀ i, (hi : i < (listCommits pickRepo 0 2).length) →
        (r'.commitOf (pickRepo.commits.length + i)).parents
            = [if i = 0 then pickRepo.head else pickRepo.commits.length + i - 1] ∧
        (r'.commitOf (pickRepo.commits.length + i)).summary
            = (pickRepo.commitOf ((listCommits pickRepo 0 2).get ⟨i, hi⟩)).summary ∧
        (r'.commitOf (pickRepo.commits.length + i)).body
            = (pickRepo.commitOf ((listCommits pickRepo 0 2).get ⟨i, hi⟩)).body
                ++ [trailer ((listCommits pickRepo 0 2).get ⟨i, hi⟩)]) := by
  refine ⟨by decide, ?_⟩
  exact (applyPick_replays_slice noConflictEnv pickRepo ("t") ("base") 2 0
    (fun _ _ => rfl) rfl (by decide) (by decide)).2 (by decide)

/-! ## Conflict behaviour of the pick loop (C6) -/

theorem pickLoop_conflict (g : Gitenv) :
    ∀ (pre : List Nat) (r : Repo) (c : Nat) (post : List Nat),
      (∀ x ∈ pre, ∀ h, g.pickConflict x h = false) →
      (∀ h, g.pickConflict c h = true) →
      ∃ rp, pickLoop g (pre ++ c :: post) r = Except.error (pickConflictMsg, rp) ∧
        Extends r rp ∧ rp.commits.length = r.commits.length + pre.length := by
  intro pre
  induction pre with
  | nil =>
    intro r c post _ hc
    refine ⟨r, ?_, Extends.refl r, by simp⟩
    simp [pickLoop, hc r.head]
  | cons x xs ih =>
    intro r c post hpre hc
    obtain ⟨rp, h1, h2, h3⟩ :=
      ih (cherryPickOne g r x) c post (fun y hy h => hpre y (by simp [hy]) h) hc
    refine ⟨rp, ?_, (cherryPickOne_extends g r x).trans h2, ?_⟩
    · simp only [List.cons_append, pickLoop, hpre x (by simp) r.head]
      exact h1
    · rw [h3, cherryPickOne_commits]
      simp
      omega

/-- Claim C6: in pick mode, when replaying one commit of the topic's
slice conflicts, the topic application aborts at that commit with the
fixed conflict error: the commits replayed before it remain in place
(the state extends the starting state by exactly `pre.length` new
commits), the conflicting commit and all the remaining ones are never
attempted (no commit is created for them), and no abort or skip is
issued — the intermediate state is handed back as-is for the
operator. -/
theorem applyPick_conflict_aborts (g : Gitenv) (r : Repo) (topic baseRef : String)
    (t base : Nat) (pre : List Nat) (c : Nat) (post : List Nat)
    (ht : r.resolve topic = some t)
    (hna : isAncestorRef r topic r.head = false)
    (hmb : mergeBaseRef r topic baseRef = some base)
    (hcs : listCommits r base t = pre ++ c :: post)
    (hpre : ∀ x ∈ pre, ∀ h, g.pickConflict x h = false)
    (hc : ∀ h, g.pickConflict c h = true) :
    ∃ rp, applyPick g r topic baseRef = Except.error (pickConflictMsg, rp) ∧
      Extends r rp ∧ rp.commits.length = r.commits.length + pre.length := by
  have hred : applyPick g r topic baseRef =
      (if (listCommits r base t).isEmpty then Except.ok r
       else pickLoop g (listCommits r base t) r) := by
    unfold applyPick
    rw [hna, hmb, ht]
    simp
  have hemp : (listCommits r base t).isEmpty = false := by
    rw [hcs]
    cases pre <;> rfl
  rw [hred, hemp]
  simp only [Bool.false_eq_true, if_false]
  rw [hcs]
  exact pickLoop_conflict g pre r c post hpre hc

/-- Oracle environment where replaying commit 2 conflicts and
everything else succeeds. -/
def conflictAtTwoEnv : Gitenv :=
  { pickConflict := fun c _ => c == 2
    mergeConflict := fun _ _ => false
    squashConflict := fun _ _ => false
    pickedTree := fun a _ => a
    mergedTree := fun a _ => a }

theorem applyPick_conflict_aborts_witness :
    ∃ rp, applyPick conflictAtTwoEnv pickRepo ("t") ("base")
        = Except.error (pickConflictMsg, rp) ∧
      Extends pickRepo rp ∧ rp.commits.length = pickRepo.commits.length + [1].length := by
  exact applyPick_conflict_aborts conflictAtTwoEnv pickRepo ("t") ("base") 2 0 [1] 2 []
    rfl (by decide) (by decide) (by decide)
    (by intro x hx h; simp at hx; subst hx; rfl)
    (fun h => rfl)

/-! ## Skip behaviour across the three modes (C2) -/

/-- Repository used by the C2 counterexample: commit 1 is an empty
commit on top of the root (same tree), and the tip is the root, so the
topic is NOT an ancestor of the tip while its tree diff against the
merge base is empty. -/
def squashSkipRepo : Repo :=
  { commits :=
      [ { parents := [], tree := 5, summary := "root", body := [] }
      , { parents := [0], tree := 5, summary := "noop", body := [] } ]
    refs := [("t", 1)]
    head := 0 }

/-- Claim C2, counterexample: in squash mode the already-integrated
gate is NOT the ancestry check.  Here the topic (commit 1) is not an
ancestor of the current tip, so per the claim the engine would apply
it, yet `applySquash` skips it (returns the repository unchanged,
creating zero commits) because the tree diff between
`mergeBase(HEAD, topic)` and the topic is empty. -/
theorem applySquash_skip_not_ancestry_cex :
    isAncestor squashSkipRepo 1 squashSkipRepo.head = false ∧
    Repo.resolve squashSkipRepo ("t") = some 1 ∧
    applySquash noConflictEnv squashSkipRepo ("t") = Except.ok squashSkipRepo := by
  exact ⟨rfl, rfl, rfl⟩

/-- Claim C2 (amended): merge and pick check integration via the
ancestry probe `isAncestor(topic, HEAD)` and skip when it holds;
squash instead skips when the tree diff between
`mergeBase(HEAD, topic)` and the topic is empty — a condition that in
particular always holds when the topic is an ancestor of the tip.
Hence in every mode a topic that is an ancestor of the current tip is
skipped unchanged (zero new commits). -/
theorem already_integrated_skip_all_modes (g : Gitenv) (r : Repo) (topic baseRef : String)
    (t : Nat) (ht : r.resolve topic = some t) (htn : t < r.commits.length)
    (ha : isAncestor r t r.head = true) :
    applyMerge g r topic = Except.ok r ∧
    applyPick g r topic baseRef = Except.ok r ∧
    applySquash g r topic = Except.ok r := by
  have href : isAncestorRef r topic r.head = true := by
    unfold isAncestorRef
    rw [ht]
    exact ha
  refine ⟨?_, ?_, ?_⟩
  · unfold applyMerge
    rw [href]
    simp
  · unfold applyPick
    rw [href]
    simp
  · unfold applySquash
    rw [ht]
    dsimp only
    rw [mergeBase_of_ancestor r htn ha]
    dsimp only
    simp

/-- Repository for the C2 witness: the topic (commit 1) is an
ancestor of the tip (commit 2). -/
def integratedRepo : Repo :=
  { commits :=
      [ { parents := [], tree := 0, summary := "root", body := [] }
      , { parents := [0], tree := 1, summary := "topic", body := [] }
      , { parents := [1], tree := 2, summary := "tip", body := [] } ]
    refs := [("t", 1), ("base", 0)]
    head := 2 }

theorem already_integrated_skip_all_modes_witness :
    applyMerge noConflictEnv integratedRepo ("t") = Except.ok integratedRepo ∧
    applyPick noConflictEnv integratedRepo ("t") ("base") = Except.ok integratedRepo ∧
    applySquash noConflictEnv integratedRepo ("t") = Except.ok integratedRepo := by
  exact already_integrated_skip_all_modes noConflictEnv integratedRepo ("t") ("base") 1
    rfl (by decide) (by decide)

/-! ## Squash mode (C4) -/

/-- Claim C4: in squash mode, when the tree diff between
`mergeBase(HEAD, topic)` and the topic is empty the topic is skipped
and zero commits are created; otherwise (and absent a conflict)
exactly one new commit is created, whose first message line is
`squash(<short-topic-name>): <topic-subject>` — the short name being
the final path segment of the resolved reference and the subject the
topic's latest commit summary line — followed by a body naming the
source topic. -/
theorem applySquash_spec (g : Gitenv) (r : Repo) (topic : String) (t common : Nat)
    (ht : r.resolve topic = some t)
    (hc : mergeBase r r.head t = some common) :
    (r.treeOf common = r.treeOf t → applySquash g r topic = Except.ok r) ∧
    (r.treeOf common ≠ r.treeOf t → g.squashConflict t r.head = false →
      applySquash g r topic = Except.ok (r.addCommit
        { parents := [r.head]
          tree := g.mergedTree (r.treeOf t) (r.treeOf r.head)
          summary := squashSubject topic (r.commitOf t).summary
          body := [squashBody topic] }) ∧
      (r.addCommit
        { parents := [r.head]
          tree := g.mergedTree (r.treeOf t) (r.treeOf r.head)
          summary := squashSubject topic (r.commitOf t).summary
          body := [squashBody topic] }).commits.length = r.commits.length + 1) := by
  unfold applySquash
  rw [ht]
  dsimp only
  rw [hc]
  dsimp only
  constructor
  · intro he
    simp [he]
  · intro hne hcf
    constructor
    · simp [beq_iff_eq, hne, hcf]
    · simp [Repo.addCommit, Repo.snoc, Repo.setHead]

/-- Repository for the C4 witness, matching the spec's own example:
topic `origin/feature-x` whose latest subject is "Add widget". -/
def squashRepo : Repo :=
  { commits :=
      [ { parents := [], tree := 0, summary := "root", body := [] }
      , { parents := [0], tree := 1, summary := "Add widget", body := [] } ]
    refs := [("origin/feature-x", 1)]
    head := 0 }

theorem applySquash_spec_witness :
    (applySquash noConflictEnv squashRepo ("origin/feature-x") = Except.ok (squashRepo.addCommit
      { parents := [squashRepo.head]
        tree := noConflictEnv.mergedTree (squashRepo.treeOf 1) (squashRepo.treeOf squashRepo.head)
        summary := squashSubject ("origin/feature-x") (squashRepo.commitOf 1).summary
        body := [squashBody ("origin/feature-x")] }) ∧
     (squashRepo.addCommit
      { parents := [squashRepo.head]
        tree := noConflictEnv.mergedTree (squashRepo.treeOf 1) (squashRepo.treeOf squashRepo.head)
        summary := squashSubject ("origin/feature-x") (squashRepo.commitOf 1).summary
        body := [squashBody ("origin/feature-x")] }).commits.length
        = squashRepo.commits.length + 1) ∧
    squashSubject ("origin/feature-x") (squashRepo.commitOf 1).summary
        = "squash(feature-x): Add widget" ∧
    applySquash noConflictEnv squashSkipRepo ("t") = Except.ok squashSkipRepo := by
  refine ⟨?_, ?_, ?_⟩
  · exact (applySquash_spec noConflictEnv squashRepo ("origin/feature-x") 1 0
      rfl (by decide)).2 (by decide) rfl
  · decide
  · exact (applySquash_spec noConflictEnv squashSkipRepo ("t") 1 0
      rfl (by decide)).1 (by decide)

/-! ## Vendoring and the pipeline coordinator

`vendorToolRepo` and the top-level async IIFE of `make-tiramiss.ts`.
Outcomes of the external commands the pipeline issues (fetch, clone,
checkout, push, `status --porcelain`) are supplied by environment
records; worktree-only bookkeeping (switch / reset between the two
local branches, staging) is modelled by its effect on the tip, since
it creates no commits. -/

/-- External-command outcomes and configuration of `vendorToolRepo`:
`TOOL_REPO` / `TOOL_REF` / `TOOL_DIR`, the exit data of the
`git clone` and of the `git -C <dir> fetch --depth=1 origin <ref>` /
`checkout FETCH_HEAD` pair, and the worktree transformation the
vendored files apply to the current tree (one for the fetched ref,
one for the shallow clone's default branch, used when the fetch
fails). -/
structure VendorEnv where
  toolRepo : String
  toolRef : String
  toolDir : String
  cloneCode : Int
  cloneErr : String
  fetchCode : Int
  checkoutCode : Int
  checkoutErr : String
  vendTreeFetched : Nat → Nat
  vendTreeClone : Nat → Nat

/-- Message of the vendor commit
(`ops: vendor <dir> from <repo>@<ref>`). -/
def vendorCommitMsg (v : VendorEnv) : String :=
  "ops: vendor " ++ v.toolDir ++ " from " ++ v.toolRepo ++ "@" ++ v.toolRef

/-- `vendorToolRepo`: no-op when `TOOL_REPO` is empty; a failing clone
is fatal (`clone failed: <stderr>`); a failing ref fetch is explicitly
non-fatal — the checkout is skipped and vendoring continues with the
shallow clone's content (a failing checkout after a successful fetch
is assertive and fatal); the nested `.git` is stripped, everything is
staged, and a commit is created only when the staged diff against the
tip is non-empty (`gitOk ["diff", "--cached", "--quiet"]`).  Returns
whether a commit was created. -/
def vendorToolRepo (v : VendorEnv) (r : Repo) : Except (String × Repo) (Repo × Bool) :=
  if v.toolRepo = "" then Except.ok (r, false)
  else if v.cloneCode ≠ 0 then Except.error ("clone failed: " ++ v.cloneErr, r)
  else if v.fetchCode = 0 ∧ v.checkoutCode ≠ 0 then
    Except.error ("git -C " ++ v.toolDir ++ " checkout FETCH_HEAD failed:\n"
      ++ v.checkoutErr, r)
  else
    let newTree := if v.fetchCode = 0 then v.vendTreeFetched (r.treeOf r.head)
                   else v.vendTreeClone (r.treeOf r.head)
    if newTree == r.treeOf r.head then Except.ok (r, false)
    else Except.ok (r.addCommit
      { parents := [r.head], tree := newTree, summary := vendorCommitMsg v, body := [] }, true)

/-- Configuration and external-command outcomes of one pipeline run:
the `git status --porcelain` output, the exit data of
`git fetch --all --prune`, the base ref / branch names, the `PUSH`
flag with the remote-tracking-branch probes and push exit data, the
mode, and the topic list (the lines of `topics.txt` after trimming
and comment/blank filtering; a missing file is the empty list). -/
structure PipeEnv where
  statusOut : String
  fetchAllCode : Int
  fetchAllErr : String
  baseRef : String
  workingBranch : String
  integBranch : String
  push : Bool
  remoteWorkingExists : Bool
  remoteIntegExists : Bool
  pushWorkCode : Int
  pushWorkErr : String
  pushIntegCode : Int
  pushIntegErr : String
  mode : Mode
  topics : List String

/-- `ensureClean`'s failure message. -/
def dirtyMsg : String := "作業ツリーがクリーンではありません。コミット or stash してください。"

/-- Assertive-failure message of `rev(BASE_REF)`. -/
def revFailMsg (ref : String) : String :=
  "git rev-parse --verify " ++ ref ++ "^\x7bcommit\x7d failed:\n"

/-- Step 3 of the pipeline: push the working branch when `PUSH` is set
and either the vendor step committed something or no remote tracking
branch exists yet.  (The `else if (PUSH && changed)` arm of the source
is unreachable: its condition implies the first one.)  A failing push
is assertive and carries the push's stderr. -/
def pushWorking (e : PipeEnv) (r : Repo) (changed : Bool) : Except (String × Repo) Repo :=
  if e.push ∧ (changed = true ∨ e.remoteWorkingExists = false) then
    if e.pushWorkCode ≠ 0 then
      Except.error ("git push -u origin " ++ e.workingBranch ++ " failed:\n"
        ++ e.pushWorkErr, r)
    else Except.ok r
  else Except.ok r

/-- Step 6 of the pipeline: push the integration branch (with `-u`
when no remote tracking branch exists yet). -/
def pushInteg (e : PipeEnv) (r : Repo) : Except (String × Repo) Repo :=
  if e.push then
    if e.remoteIntegExists = false then
      if e.pushIntegCode ≠ 0 then
        Except.error ("git push -u origin " ++ e.integBranch ++ " failed:\n"
          ++ e.pushIntegErr, r)
      else Except.ok r
    else
      if e.pushIntegCode ≠ 0 then
        Except.error ("git push origin " ++ e.integBranch ++ " failed:\n"
          ++ e.pushIntegErr, r)
      else Except.ok r
  else Except.ok r

/-- The pipeline coordinator (the async IIFE): precondition (clean
tree), `fetch --all --prune`, resolve the base and reset/create the
working branch there (tip := base; branch-ref bookkeeping creates no
commits), vendor step, conditional working-branch push, reset/create
the integration branch at the working tip, apply the topics in order
in the run's mode, push the integration branch.  The first failing
step halts the run with its error; nothing is rolled back. -/
def runPipeline (e : PipeEnv) (g : Gitenv) (v : VendorEnv) (r : Repo) :
    Except (String × Repo) Repo :=
  if trimStr e.statusOut ≠ "" then Except.error (dirtyMsg, r)
  else if e.fetchAllCode ≠ 0 then
    Except.error ("git fetch --all --prune failed:\n" ++ e.fetchAllErr, r)
  else
    match r.resolve e.baseRef with
    | none => Except.error (revFailMsg e.baseRef, r)
    | some base =>
      match vendorToolRepo v (r.setHead base) with
      | Except.error err => Except.error err
      | Except.ok (r2, changed) =>
        match pushWorking e r2 changed with
        | Except.error err => Except.error err
        | Except.ok r3 =>
          match applyTopics g e.mode e.baseRef e.topics (r3.setHead r3.head) with
          | Except.error err => Except.error err
          | Except.ok r5 => pushInteg e r5

/-! ## Transport failures (C7) -/

/-- A repository holding only a root commit, with the base ref on
it. -/
def rootOnlyRepo : Repo :=
  { commits := [ { parents := [], tree := 0, summary := "root", body := [] } ]
    refs := [("base", 0)]
    head := 0 }

/-- Vendor environment whose ref fetch fails (clone succeeds). -/
def fetchFailVendorEnv : VendorEnv :=
  { toolRepo := "https://example.com/tool.git"
    toolRef := "main"
    toolDir := "tiramiss"
    cloneCode := 0
    cloneErr := ""
    fetchCode := 1
    checkoutCode := 0
    checkoutErr := ""
    vendTreeFetched := fun t => t + 1
    vendTreeClone := fun t => t + 1 }

/-- Pipeline environment with every transport command succeeding,
pushes disabled, and no topics. -/
def quietPipeEnv : PipeEnv :=
  { statusOut := ""
    fetchAllCode := 0
    fetchAllErr := ""
    baseRef := "base"
    workingBranch := "develop-working"
    integBranch := "tiramiss"
    push := false
    remoteWorkingExists := false
    remoteIntegExists := false
    pushWorkCode := 0
    pushWorkErr := ""
    pushIntegCode := 0
    pushIntegErr := ""
    mode := Mode.squash
    topics := [] }

/-- Claim C7, counterexample: the fetch performed while vendoring the
tool repository exits nonzero, yet the pipeline does not halt — the
vendor step skips the checkout, continues with the shallow clone's
content, and the whole run completes successfully. -/
theorem vendor_fetch_failure_nonfatal_cex :
    fetchFailVendorEnv.fetchCode ≠ 0 ∧
    (vendorToolRepo fetchFailVendorEnv rootOnlyRepo).isOk = true ∧
    (runPipeline quietPipeEnv noConflictEnv fetchFailVendorEnv rootOnlyRepo).isOk = true := by
  exact ⟨by decide, rfl, rfl⟩

/-- Claim C7 (amended): the pipeline-level fetch (`fetch --all
--prune`), the clone performed while vendoring, and every push are
fatal when they exit nonzero, halting the run with an error that
carries the underlying command's stderr; the fetch of the specific
tool ref inside `vendorToolRepo`, however, is deliberately non-fatal:
on failure the checkout is skipped and vendoring continues with the
shallow clone's content. -/
theorem transport_failures_spec (e : PipeEnv) (g : Gitenv) (v : VendorEnv) (r : Repo)
    (changed : Bool) :
    (trimStr e.statusOut = "" → e.fetchAllCode ≠ 0 →
      runPipeline e g v r
        = Except.error ("git fetch --all --prune failed:\n" ++ e.fetchAllErr, r)) ∧
    (v.toolRepo ≠ "" → v.cloneCode ≠ 0 →
      vendorToolRepo v r = Except.error ("clone failed: " ++ v.cloneErr, r)) ∧
    (v.toolRepo ≠ "" → v.cloneCode = 0 → v.fetchCode ≠ 0 →
      (vendorToolRepo v r).isOk = true) ∧
    (e.push = true → e.pushWorkCode ≠ 0 → (changed = true ∨ e.remoteWorkingExists = false) →
      pushWorking e r changed
        = Except.error ("git push -u origin " ++ e.workingBranch ++ " failed:\n"
            ++ e.pushWorkErr, r)) ∧
    (e.push = true → e.pushIntegCode ≠ 0 →
      pushInteg e r = Except.error
        ((if e.remoteIntegExists then "git push origin " else "git push -u origin ")
          ++ e.integBranch ++ " failed:\n" ++ e.pushIntegErr, r)) := by
  refine ⟨?_, ?_, ?_, ?_, ?_⟩
  · intro h1 h2
    unfold runPipeline
    rw [h1]
    simp [h2]
  · intro h1 h2
    unfold vendorToolRepo
    rw [if_neg h1, if_pos h2]
  · intro h1 h2 h3
    unfold vendorToolRepo
    rw [if_neg h1, if_neg (by simp [h2]), if_neg (fun hcontra => h3 hcontra.1)]
    dsimp only
    split <;> split <;> rfl
  · intro h1 h2 h3
    unfold pushWorking
    rw [if_pos ⟨by simp [h1], h3⟩, if_pos h2]
  · intro h1 h2
    unfold pushInteg
    rw [if_pos (by simp [h1])]
    cases hre : e.remoteIntegExists
    · rw [if_pos rfl, if_pos h2]
      simp
    · rw [if_neg (by simp), if_pos h2]
      simp

/-- Vendor environment whose clone fails. -/
def cloneFailVendorEnv : VendorEnv :=
  { toolRepo := "https://example.com/tool.git"
    toolRef := "main"
    toolDir := "tiramiss"
    cloneCode := 128
    cloneErr := "refused"
    fetchCode := 0
    checkoutCode := 0
    checkoutErr := ""
    vendTreeFetched := fun t => t
    vendTreeClone := fun t => t }

/-- Pipeline environment whose top-level fetch fails. -/
def fetchAllFailEnv : PipeEnv :=
  { quietPipeEnv with fetchAllCode := 1, fetchAllErr := "net down" }

/-- Pipeline environment where pushing is enabled and pushes fail. -/
def pushFailEnv : PipeEnv :=
  { quietPipeEnv with
      push := true
      pushWorkCode := 1
      pushWorkErr := "denied"
      pushIntegCode := 1
      pushIntegErr := "denied" }

theorem transport_failures_spec_witness :
    runPipeline fetchAllFailEnv noConflictEnv cloneFailVendorEnv rootOnlyRepo
      = Except.error ("git fetch --all --prune failed:\n"
          ++ fetchAllFailEnv.fetchAllErr, rootOnlyRepo) ∧
    vendorToolRepo cloneFailVendorEnv rootOnlyRepo
      = Except.error ("clone failed: " ++ cloneFailVendorEnv.cloneErr, rootOnlyRepo) ∧
    (vendorToolRepo fetchFailVendorEnv rootOnlyRepo).isOk = true ∧
    pushWorking pushFailEnv rootOnlyRepo true
      = Except.error ("git push -u origin " ++ pushFailEnv.workingBranch ++ " failed:\n"
          ++ pushFailEnv.pushWorkErr, rootOnlyRepo) ∧
    pushInteg pushFailEnv rootOnlyRepo
      = Except.error
        ((if pushFailEnv.remoteIntegExists then "git push origin " else "git push -u origin ")
          ++ pushFailEnv.integBranch ++ " failed:\n" ++ pushFailEnv.pushIntegErr,
          rootOnlyRepo) := by
  refine ⟨?_, ?_, ?_, ?_, ?_⟩
  · exact (transport_failures_spec fetchAllFailEnv noConflictEnv cloneFailVendorEnv
      rootOnlyRepo true).1 rfl (by decide)
  · exact (transport_failures_spec fetchAllFailEnv noConflictEnv cloneFailVendorEnv
      rootOnlyRepo true).2.1 (by decide) (by decide)
  · exact (transport_failures_spec quietPipeEnv noConflictEnv fetchFailVendorEnv
      rootOnlyRepo true).2.2.1 (by decide) rfl (by decide)
  · exact (transport_failures_spec pushFailEnv noConflictEnv cloneFailVendorEnv
      rootOnlyRepo true).2.2.2.1 rfl (by decide) (Or.inl rfl)
  · exact (transport_failures_spec pushFailEnv noConflictEnv cloneFailVendorEnv
      rootOnlyRepo true).2.2.2.2 rfl (by decide)

/-! ## Rerun analysis (C3)

The topic decisions of a run depend only on the commits of the
starting repository, the base commit, and the set of original commits
reachable from the current tip.  `Inv r0 S r` captures a state `r`
reached from `r0` whose tip's original ancestors are exactly `S`;
`topicPlan` computes each topic's effect purely from `r0`, `S` and the
base, so two runs that start from the same reset tip make identical
decisions even though the second starts with extra commits. -/

theorem lookup_mem : ∀ (l : List (String × Nat)) (s : String) (t : Nat),
    l.lookup s = some t → (s, t) ∈ l := by
  intro l
  induction l with
  | nil => intro s t h; cases h
  | cons p rest ih =>
    intro s t h
    cases p with
    | mk k v =>
      simp only [List.lookup] at h
      cases hbe : (s == k) with
      | true =>
        rw [hbe] at h
        simp only [Option.some.injEq] at h
        subst h
        have hs : s = k := by simpa using hbe
        simp [hs]
      | false =>
        rw [hbe] at h
        exact List.mem_cons_of_mem _ (ih s t h)

/-- Every ref of the table points below the commit count. -/
def refsBounded (r : Repo) : Prop := ∀ p ∈ r.refs, p.2 < r.commits.length

theorem resolve_lt {r : Repo} (h : refsBounded r) {s : String} {t : Nat}
    (hr : r.resolve s = some t) : t < r.commits.length :=
  h (s, t) (lookup_mem r.refs s t hr)

theorem refsBounded_ext {r0 r : Repo} (hext : Extends r0 r) (h : refsBounded r0) :
    refsBounded r := by
  intro p hp
  rw [← hext.2.1] at hp
  exact Nat.lt_of_lt_of_le (h p hp) hext.1

/-- Simulation invariant: `r` extends `r0`, its tip is a real commit,
and among the original commits exactly those satisfying `S` are
ancestors of the tip. -/
def Inv (r0 : Repo) (S : Nat → Bool) (r : Repo) : Prop :=
  Extends r0 r ∧ r.head < r.commits.length ∧
  ∀ a, a < r0.commits.length → isAncestor r a r.head = S a

theorem extends_setHead_self (r : Repo) (h : Nat) : Extends r (r.setHead h) :=
  ⟨Nat.le_refl _, rfl, fun _ _ => rfl⟩

theorem isAncestor_setHead (r : Repo) (h a b : Nat) :
    isAncestor (r.setHead h) a b = isAncestor r a b :=
  isAncestor_congr (r.setHead h) r rfl a b

theorem isAncestor_addCommit_new (r : Repo) (c : Commit)
    (hp : ∀ p ∈ c.parents, p < r.commits.length) (a : Nat) :
    isAncestor (r.addCommit c) a r.commits.length =
      ((a == r.commits.length) || c.parents.any (fun p => isAncestor r a p)) := by
  rw [isAncestor_congr (r.addCommit c) (r.snoc c) rfl]
  exact isAncestor_snoc_new r c hp a

/-- Creating a commit whose sole parent is the tip (cherry-pick,
squash commit, vendor commit) does not change which original commits
are ancestors of the tip. -/
theorem addCommit_single_parent_inv {r0 : Repo} {S : Nat → Bool} {r : Repo} {c : Commit}
    (hinv : Inv r0 S r) (hp : c.parents = [r.head]) : Inv r0 S (r.addCommit c) := by
  obtain ⟨hext, hh, hanc⟩ := hinv
  refine ⟨hext.trans (extends_addCommit r c), ?_, ?_⟩
  · show r.commits.length < (r.addCommit c).commits.length
    simp [Repo.addCommit, Repo.snoc, Repo.setHead]
  · intro a ha
    have hlen : r0.commits.length ≤ r.commits.length := hext.1
    show isAncestor (r.addCommit c) a r.commits.length = S a
    rw [isAncestor_addCommit_new r c
      (by rw [hp]; intro p hpm; simp at hpm; subst hpm; exact hh) a]
    have hane : (a == r.commits.length) = false := by
      simp only [beq_eq_false_iff_ne, ne_eq]
      omega
    rw [hane, hp]
    simp only [List.any_cons, List.any_nil, Bool.or_false, Bool.false_or]
    exact hanc a ha

/-- A merge commit `[tip, t]` adds exactly the ancestors of `t` to the
tip's ancestor set. -/
theorem addCommit_merge_inv {r0 : Repo} {S : Nat → Bool} {r : Repo} {t : Nat} {c : Commit}
    (hinv : Inv r0 S r) (hp : c.parents = [r.head, t]) (htn : t < r0.commits.length) :
    Inv r0 (fun a => S a || isAncestor r0 a t) (r.addCommit c) := by
  obtain ⟨hext, hh, hanc⟩ := hinv
  have hlen : r0.commits.length ≤ r.commits.length := hext.1
  refine ⟨hext.trans (extends_addCommit r c), ?_, ?_⟩
  · show r.commits.length < (r.addCommit c).commits.length
    simp [Repo.addCommit, Repo.snoc, Repo.setHead]
  · intro a ha
    show isAncestor (r.addCommit c) a r.commits.length = _
    rw [isAncestor_addCommit_new r c
      (by rw [hp]; intro p hpm; simp at hpm; rcases hpm with h | h <;> omega) a]
    have hane : (a == r.commits.length) = false := by
      simp only [beq_eq_false_iff_ne, ne_eq]
      omega
    rw [hane, hp]
    simp only [List.any_cons, List.any_nil, Bool.or_false, Bool.false_or]
    rw [hanc a ha, isAncestor_ext hext htn]

/-- The merge base of the current tip with an original commit `t`,
computed through the ancestor-set abstraction: the largest original
commit that is an ancestor of both (commits created after the
original store have ids above `t` and cannot be its ancestors). -/
def mergeBaseS (r0 : Repo) (S : Nat → Bool) (t : Nat) : Option Nat :=
  ((List.range r0.commits.length).filter (fun c => S c && isAncestor r0 c t)).max?

theorem mergeBaseS_lt {r0 : Repo} {S : Nat → Bool} {t m : Nat}
    (h : mergeBaseS r0 S t = some m) : m < r0.commits.length := by
  unfold mergeBaseS at h
  have h1 := (List.max?_eq_some_iff'.mp h).1
  exact List.mem_range.mp (List.mem_of_mem_filter h1)

/-- Under the invariant, the merge base the engine computes between
the current tip and an original commit is `mergeBaseS`. -/
theorem mergeBase_head_inv {r0 : Repo} {S : Nat → Bool} {r : Repo}
    (hinv : Inv r0 S r) {t : Nat} (htn : t < r0.commits.length) :
    mergeBase r r.head t = mergeBaseS r0 S t := by
  obtain ⟨hext, hh, hanc⟩ := hinv
  unfold mergeBase mergeBaseS
  have hle := hext.1
  congr 1
  have hsplit : r.commits.length
      = r0.commits.length + (r.commits.length - r0.commits.length) := by
    omega
  rw [hsplit, List.range_add, List.filter_append]
  have h2 : (List.filter (fun c => isAncestor r c r.head && isAncestor r c t)
      (List.map (fun x => r0.commits.length + x)
        (List.range (r.commits.length - r0.commits.length)))) = [] := by
    apply List.filter_eq_nil_iff.mpr
    intro x hx
    rcases List.mem_map.mp hx with ⟨i, _, rfl⟩
    have hfa : isAncestor r (r0.commits.length + i) t = false :=
      isAncestor_false_of_ge r (by omega)
    simp [hfa]
  rw [h2, List.append_nil]
  apply List.filter_congr
  intro c hc
  have hcn : c < r0.commits.length := List.mem_range.mp hc
  rw [hanc c hcn, isAncestor_ext hext htn]

theorem resolveTopicRef_ext {r0 r : Repo} (hext : Extends r0 r) (raw : String) :
    resolveTopicRef r raw = resolveTopicRef r0 raw := by
  unfold resolveTopicRef
  rw [resolve_ext hext raw, resolve_ext hext ("origin/" ++ raw),
    resolve_ext hext ("upstream/" ++ raw)]

theorem resolveTopicRef_resolves {r : Repo} {raw topic : String}
    (h : resolveTopicRef r raw = Except.ok topic) : (r.resolve topic).isSome = true := by
  unfold resolveTopicRef at h
  by_cases h1 : (r.resolve raw).isSome
  · rw [if_pos h1] at h
    cases h
    exact h1
  · rw [if_neg h1] at h
    by_cases h2 : (r.resolve ("origin/" ++ raw)).isSome
    · rw [if_pos h2] at h
      cases h
      exact h2
    · rw [if_neg h2] at h
      by_cases h3 : (r.resolve ("upstream/" ++ raw)).isSome
      · rw [if_pos h3] at h
        cases h
        exact h3
      · rw [if_neg h3] at h
        cases h

theorem mergeBaseRef_ext {r0 r : Repo} (hext : Extends r0 r) (hrefs : refsBounded r0)
    (x y : String) : mergeBaseRef r x y = mergeBaseRef r0 x y := by
  unfold mergeBaseRef
  rw [resolve_ext hext x, resolve_ext hext y]
  cases hx : r0.resolve x with
  | none => rfl
  | some a =>
    cases hy : r0.resolve y with
    | none => rfl
    | some b =>
      exact mergeBase_ext hext (resolve_lt hrefs hx) (resolve_lt hrefs hy)

/-- The pick replay loop preserves the invariant (each new commit's
sole parent is the tip) and adds one commit per source commit. -/
theorem pickLoop_inv (g : Gitenv) (hnc : ∀ c h, g.pickConflict c h = false)
    (r0 : Repo) (S : Nat → Bool) :
    ∀ (cs : List Nat) (r : Repo), Inv r0 S r →
      ∃ r', pickLoop g cs r = Except.ok r' ∧ Inv r0 S r' ∧
        r'.commits.length = r.commits.length + cs.length := by
  intro cs
  induction cs with
  | nil =>
    intro r hinv
    exact ⟨r, rfl, hinv, by simp⟩
  | cons c rest ih =>
    intro r hinv
    obtain ⟨r', h1, h2, h3⟩ := ih (cherryPickOne g r c)
      (addCommit_single_parent_inv hinv rfl)
    refine ⟨r', ?_, h2, ?_⟩
    · simp only [pickLoop, hnc c r.head]
      exact h1
    · rw [h3, cherryPickOne_commits]
      simp only [List.length_cons]
      omega

/-- One topic's effect, computed purely from the original repository,
the base ref and the tip's ancestor-set abstraction: `none` when the
engine would fail there, otherwise the updated abstraction and the
number of commits created.  Mirrors `applyTopic` case by case. -/
def topicPlan (r0 : Repo) (mode : Mode) (baseRef : String) (S : Nat → Bool) (raw : String) :
    Option ((Nat → Bool) × Nat) :=
  match resolveTopicRef r0 raw with
  | Except.error _ => none
  | Except.ok topic =>
    match r0.resolve topic with
    | none => none
    | some t =>
      match mode with
      | Mode.merge =>
        if S t then some (S, 0)
        else some (fun a => S a || isAncestor r0 a t, 1)
      | Mode.pick =>
        if S t then some (S, 0)
        else
          match mergeBaseRef r0 topic baseRef with
          | none => none
          | some base => some (S, (listCommits r0 base t).length)
      | Mode.squash =>
        match mergeBaseS r0 S t with
        | none => none
        | some common =>
          if r0.treeOf common == r0.treeOf t then some (S, 0)
          else some (S, 1)

/-- The whole topic list's effect under `topicPlan`, accumulating the
number of commits created. -/
def topicsPlan (r0 : Repo) (mode : Mode) (baseRef : String) :
    List String → (Nat → Bool) → Option ((Nat → Bool) × Nat)
  | [], S => some (S, 0)
  | raw :: rest, S =>
    match topicPlan r0 mode baseRef S raw with
    | none => none
    | some (S1, k) =>
      match topicsPlan r0 mode baseRef rest S1 with
      | none => none
      | some (S2, n) => some (S2, k + n)

theorem mergeBaseRef_lt {r0 : Repo} {x y : String} {m : Nat}
    (h : mergeBaseRef r0 x y = some m) : m < r0.commits.length := by
  unfold mergeBaseRef at h
  cases hx : r0.resolve x with
  | none => rw [hx] at h; cases h
  | some a =>
    cases hy : r0.resolve y with
    | none => rw [hx, hy] at h; cases h
    | some b =>
      rw [hx, hy] at h
      exact (mergeBase_spec r0 h).1

theorem applyMerge_plan (g : Gitenv) (hgm : ∀ t h, g.mergeConflict t h = false)
    (r0 : Repo) {S : Nat → Bool} {r : Repo} (hinv : Inv r0 S r)
    {topic : String} {t : Nat} (ht0 : r0.resolve topic = some t)
    (htn : t < r0.commits.length) :
    (S t = true → applyMerge g r topic = Except.ok r) ∧
    (S t = false → ∃ r', applyMerge g r topic = Except.ok r' ∧
      Inv r0 (fun a => S a || isAncestor r0 a t) r' ∧
      r'.commits.length = r.commits.length + 1) := by
  have hrt : r.resolve topic = some t := by
    rw [resolve_ext hinv.1]
    exact ht0
  have hia : isAncestorRef r topic r.head = S t := by
    unfold isAncestorRef
    rw [hrt]
    exact hinv.2.2 t htn
  constructor
  · intro hS
    unfold applyMerge
    rw [hia, hS]
    simp
  · intro hS
    unfold applyMerge
    rw [hia, hS]
    simp only [Bool.false_eq_true, if_false]
    rw [hrt]
    dsimp only
    rw [hgm t r.head]
    simp only [Bool.false_eq_true, if_false]
    refine ⟨_, rfl, ?_, ?_⟩
    · exact addCommit_merge_inv hinv rfl htn
    · simp [Repo.addCommit, Repo.snoc, Repo.setHead]

theorem applyPick_plan (g : Gitenv) (hgp : ∀ c h, g.pickConflict c h = false)
    (r0 : Repo) (hrefs : refsBounded r0) {S : Nat → Bool} {r : Repo} (hinv : Inv r0 S r)
    {topic : String} {t : Nat} (ht0 : r0.resolve topic = some t)
    (htn : t < r0.commits.length) (baseRef : String) :
    (S t = true → applyPick g r topic baseRef = Except.ok r) ∧
    (S t = false → mergeBaseRef r0 topic baseRef = none →
      ∃ err, applyPick g r topic baseRef = Except.error err) ∧
    (∀ base, S t = false → mergeBaseRef r0 topic baseRef = some base →
      ∃ r', applyPick g r topic baseRef = Except.ok r' ∧ Inv r0 S r' ∧
        r'.commits.length = r.commits.length + (listCommits r0 base t).length) := by
  have hrt : r.resolve topic = some t := by
    rw [resolve_ext hinv.1]
    exact ht0
  have hia : isAncestorRef r topic r.head = S t := by
    unfold isAncestorRef
    rw [hrt]
    exact hinv.2.2 t htn
  have hmbe : mergeBaseRef r topic baseRef = mergeBaseRef r0 topic baseRef :=
    mergeBaseRef_ext hinv.1 hrefs topic baseRef
  refine ⟨?_, ?_, ?_⟩
  · intro hS
    unfold applyPick
    rw [hia, hS]
    simp
  · intro hS hmb
    unfold applyPick
    rw [hia, hS]
    simp only [Bool.false_eq_true, if_false]
    rw [hmbe, hmb, hrt]
    exact ⟨_, rfl⟩
  · intro base hS hmb
    have hbn : base < r0.commits.length := mergeBaseRef_lt hmb
    have hlc : listCommits r base t = listCommits r0 base t :=
      listCommits_ext hinv.1 hbn htn
    unfold applyPick
    rw [hia, hS]
    simp only [Bool.false_eq_true, if_false]
    rw [hmbe, hmb, hrt]
    dsimp only
    rw [hlc]
    by_cases hemp : (listCommits r0 base t).isEmpty = true
    · rw [if_pos hemp]
      refine ⟨r, rfl, hinv, ?_⟩
      have hz : listCommits r0 base t = [] := List.isEmpty_iff.mp hemp
      rw [hz]
      simp
    · rw [if_neg hemp]
      exact pickLoop_inv g hgp r0 S (listCommits r0 base t) r hinv

theorem applySquash_plan (g : Gitenv) (hgs : ∀ t h, g.squashConflict t h = false)
    (r0 : Repo) {S : Nat → Bool} {r : Repo} (hinv : Inv r0 S r)
    {topic : String} {t : Nat} (ht0 : r0.resolve topic = some t)
    (htn : t < r0.commits.length) :
    (mergeBaseS r0 S t = none → ∃ err, applySquash g r topic = Except.error err) ∧
    (∀ common, mergeBaseS r0 S t = some common → r0.treeOf common = r0.treeOf t →
      applySquash g r topic = Except.ok r) ∧
    (∀ common, mergeBaseS r0 S t = some common → r0.treeOf common ≠ r0.treeOf t →
      ∃ r', applySquash g r topic = Except.ok r' ∧ Inv r0 S r' ∧
        r'.commits.length = r.commits.length + 1) := by
  have hrt : r.resolve topic = some t := by
    rw [resolve_ext hinv.1]
    exact ht0
  have hmh : mergeBase r r.head t = mergeBaseS r0 S t := mergeBase_head_inv hinv htn
  refine ⟨?_, ?_, ?_⟩
  · intro hmb
    unfold applySquash
    rw [hrt]
    dsimp only
    rw [hmh, hmb]
    exact ⟨_, rfl⟩
  · intro common hmb he
    have hcn : common < r0.commits.length := mergeBaseS_lt hmb
    unfold applySquash
    rw [hrt]
    dsimp only
    rw [hmh, hmb]
    dsimp only
    rw [treeOf_ext hinv.1 hcn, treeOf_ext hinv.1 htn, he]
    simp
  · intro common hmb hne
    have hcn : common < r0.commits.length := mergeBaseS_lt hmb
    unfold applySquash
    rw [hrt]
    dsimp only
    rw [hmh, hmb]
    dsimp only
    rw [treeOf_ext hinv.1 hcn, treeOf_ext hinv.1 htn]
    have hbe : (r0.treeOf common == r0.treeOf t) = false := by
      simp [hne]
    rw [hbe]
    simp only [Bool.false_eq_true, if_false]
    rw [hgs t r.head]
    simp only [Bool.false_eq_true, if_false]
    refine ⟨_, rfl, ?_, ?_⟩
    · exact addCommit_single_parent_inv hinv rfl
    · simp [Repo.addCommit, Repo.snoc, Repo.setHead]

theorem applyTopic_plan (g : Gitenv) (hg : g.conflictFree) (r0 : Repo)
    (hrefs : refsBounded r0) (mode : Mode) (baseRef : String)
    (S : Nat → Bool) (r : Repo) (hinv : Inv r0 S r) (raw : String) :
    (topicPlan r0 mode baseRef S raw = none →
      ∃ err, applyTopic g mode baseRef r raw = Except.error err) ∧
    (∀ S' k, topicPlan r0 mode baseRef S raw = some (S', k) →
      ∃ r', applyTopic g mode baseRef r raw = Except.ok r' ∧ Inv r0 S' r' ∧
        r'.commits.length = r.commits.length + k) := by
  obtain ⟨hgp, hgm, hgs⟩ := hg
  have hra : resolveTopicRef r raw = resolveTopicRef r0 raw :=
    resolveTopicRef_ext hinv.1 raw
  cases hres : resolveTopicRef r0 raw with
  | error e =>
    have happ : applyTopic g mode baseRef r raw = Except.error (e, r) := by
      unfold applyTopic
      rw [hra, hres]
    have hplan : topicPlan r0 mode baseRef S raw = none := by
      unfold topicPlan
      rw [hres]
    refine ⟨fun _ => ⟨(e, r), happ⟩, fun S' k h => ?_⟩
    rw [hplan] at h
    exact Option.noConfusion h
  | ok topic =>
    have hrsome := resolveTopicRef_resolves hres
    cases ht : r0.resolve topic with
    | none =>
      rw [ht] at hrsome
      simp at hrsome
    | some t =>
      have htn : t < r0.commits.length := resolve_lt hrefs ht
      have happ : applyTopic g mode baseRef r raw =
          (match mode with
           | Mode.merge => applyMerge g r topic
           | Mode.pick => applyPick g r topic baseRef
           | Mode.squash => applySquash g r topic) := by
        unfold applyTopic
        rw [hra, hres]
      cases mode with
      | merge =>
        have hm := applyMerge_plan g hgm r0 hinv ht htn
        cases hS : S t with
        | true =>
          have hplan : topicPlan r0 Mode.merge baseRef S raw = some (S, 0) := by
            unfold topicPlan
            rw [hres]
            dsimp only
            rw [ht]
            dsimp only
            rw [hS]
            simp
          refine ⟨fun h => by rw [hplan] at h; exact Option.noConfusion h, fun S' k h => ?_⟩
          rw [hplan] at h
          simp only [Option.some.injEq, Prod.mk.injEq] at h
          obtain ⟨h1, h2⟩ := h
          subst h1
          subst h2
          exact ⟨r, by rw [happ]; exact hm.1 hS, hinv, by simp⟩
        | false =>
          have hplan : topicPlan r0 Mode.merge baseRef S raw
              = some (fun a => S a || isAncestor r0 a t, 1) := by
            unfold topicPlan
            rw [hres]
            dsimp only
            rw [ht]
            dsimp only
            rw [hS]
            simp
          refine ⟨fun h => by rw [hplan] at h; exact Option.noConfusion h, fun S' k h => ?_⟩
          rw [hplan] at h
          simp only [Option.some.injEq, Prod.mk.injEq] at h
          obtain ⟨h1, h2⟩ := h
          subst h1
          subst h2
          obtain ⟨r', ha, hinvm, hlen⟩ := hm.2 hS
          exact ⟨r', by rw [happ]; exact ha, hinvm, hlen⟩
      | pick =>
        have hm := applyPick_plan g hgp r0 hrefs hinv ht htn baseRef
        cases hS : S t with
        | true =>
          have hplan : topicPlan r0 Mode.pick baseRef S raw = some (S, 0) := by
            unfold topicPlan
            rw [hres]
            dsimp only
            rw [ht]
            dsimp only
            rw [hS]
            simp
          refine ⟨fun h => by rw [hplan] at h; exact Option.noConfusion h, fun S' k h => ?_⟩
          rw [hplan] at h
          simp only [Option.some.injEq, Prod.mk.injEq] at h
          obtain ⟨h1, h2⟩ := h
          subst h1
          subst h2
          exact ⟨r, by rw [happ]; exact hm.1 hS, hinv, by simp⟩
        | false =>
          cases hmb : mergeBaseRef r0 topic baseRef with
          | none =>
            have hplan : topicPlan r0 Mode.pick baseRef S raw = none := by
              unfold topicPlan
              rw [hres]
              dsimp only
              rw [ht]
              dsimp only
              rw [hS]
              simp only [Bool.false_eq_true, if_false]
              rw [hmb]
            refine ⟨fun _ => ?_, fun S' k h => by rw [hplan] at h; exact Option.noConfusion h⟩
            obtain ⟨err, herr⟩ := hm.2.1 hS hmb
            exact ⟨err, by rw [happ]; exact herr⟩
          | some base =>
            have hplan : topicPlan r0 Mode.pick baseRef S raw
                = some (S, (listCommits r0 base t).length) := by
              unfold topicPlan
              rw [hres]
              dsimp only
              rw [ht]
              dsimp only
              rw [hS]
              simp only [Bool.false_eq_true, if_false]
              rw [hmb]
            refine ⟨fun h => by rw [hplan] at h; exact Option.noConfusion h, fun S' k h => ?_⟩
            rw [hplan] at h
            simp only [Option.some.injEq, Prod.mk.injEq] at h
            obtain ⟨h1, h2⟩ := h
            subst h1
            subst h2
            obtain ⟨r', ha, hinvp, hlen⟩ := hm.2.2 base hS hmb
            exact ⟨r', by rw [happ]; exact ha, hinvp, hlen⟩
      | squash =>
        have hm := applySquash_plan g hgs r0 hinv ht htn
        cases hmb : mergeBaseS r0 S t with
        | none =>
          have hplan : topicPlan r0 Mode.squash baseRef S raw = none := by
            unfold topicPlan
            rw [hres]
            dsimp only
            rw [ht]
            dsimp only
            rw [hmb]
          refine ⟨fun _ => ?_, fun S' k h => by rw [hplan] at h; exact Option.noConfusion h⟩
          obtain ⟨err, herr⟩ := hm.1 hmb
          exact ⟨err, by rw [happ]; exact herr⟩
        | some common =>
          by_cases he : r0.treeOf common = r0.treeOf t
          · have hplan : topicPlan r0 Mode.squash baseRef S raw = some (S, 0) := by
              unfold topicPlan
              rw [hres]
              dsimp only
              rw [ht]
              dsimp only
              rw [hmb]
              dsimp only
              rw [he]
              simp
            refine ⟨fun h => by rw [hplan] at h; exact Option.noConfusion h, fun S' k h => ?_⟩
            rw [hplan] at h
            simp only [Option.some.injEq, Prod.mk.injEq] at h
            obtain ⟨h1, h2⟩ := h
            subst h1
            subst h2
            exact ⟨r, by rw [happ]; exact hm.2.1 common hmb he, hinv, by simp⟩
          · have hplan : topicPlan r0 Mode.squash baseRef S raw = some (S, 1) := by
              unfold topicPlan
              rw [hres]
              dsimp only
              rw [ht]
              dsimp only
              rw [hmb]
              dsimp only
              have hbe : (r0.treeOf common == r0.treeOf t) = false := by
                simp [he]
              rw [hbe]
              simp
            refine ⟨fun h => by rw [hplan] at h; exact Option.noConfusion h, fun S' k h => ?_⟩
            rw [hplan] at h
            simp only [Option.some.injEq, Prod.mk.injEq] at h
            obtain ⟨h1, h2⟩ := h
            subst h1
            subst h2
            obtain ⟨r', ha, hinvs, hlen⟩ := hm.2.2 common hmb he
            exact ⟨r', by rw [happ]; exact ha, hinvs, hlen⟩

theorem applyTopics_plan (g : Gitenv) (hg : g.conflictFree) (r0 : Repo)
    (hrefs : refsBounded r0) (mode : Mode) (baseRef : String) :
    ∀ (topics : List String) (S : Nat → Bool) (r : Repo), Inv r0 S r →
      (topicsPlan r0 mode baseRef topics S = none →
        ∃ err, applyTopics g mode baseRef topics r = Except.error err) ∧
      (∀ S' k, topicsPlan r0 mode baseRef topics S = some (S', k) →
        ∃ r', applyTopics g mode baseRef topics r = Except.ok r' ∧ Inv r0 S' r' ∧
          r'.commits.length = r.commits.length + k) := by
  intro topics
  induction topics with
  | nil =>
    intro S r hinv
    constructor
    · intro h
      exact Option.noConfusion h
    · intro S' k h
      simp only [topicsPlan, Option.some.injEq, Prod.mk.injEq] at h
      obtain ⟨h1, h2⟩ := h
      subst h1
      subst h2
      exact ⟨r, rfl, hinv, by simp⟩
  | cons raw rest ih =>
    intro S r hinv
    have hstep := applyTopic_plan g hg r0 hrefs mode baseRef S r hinv raw
    constructor
    · intro h
      cases hp1 : topicPlan r0 mode baseRef S raw with
      | none =>
        obtain ⟨err, herr⟩ := hstep.1 hp1
        refine ⟨err, ?_⟩
        unfold applyTopics
        rw [herr]
      | some pair =>
        obtain ⟨S1, k1⟩ := pair
        obtain ⟨r', h1, h2, h3⟩ := hstep.2 S1 k1 hp1
        have hrest : topicsPlan r0 mode baseRef rest S1 = none := by
          unfold topicsPlan at h
          rw [hp1] at h
          dsimp only at h
          cases hr2 : topicsPlan r0 mode baseRef rest S1 with
          | none => rfl
          | some q =>
            obtain ⟨S2, n⟩ := q
            rw [hr2] at h
            exact Option.noConfusion h
        obtain ⟨err, herr⟩ := (ih S1 r' h2).1 hrest
        refine ⟨err, ?_⟩
        unfold applyTopics
        rw [h1]
        exact herr
    · intro S' k h
      cases hp1 : topicPlan r0 mode baseRef S raw with
      | none =>
        unfold topicsPlan at h
        rw [hp1] at h
        exact Option.noConfusion h
      | some pair =>
        obtain ⟨S1, k1⟩ := pair
        obtain ⟨r', h1, h2, h3⟩ := hstep.2 S1 k1 hp1
        unfold topicsPlan at h
        rw [hp1] at h
        dsimp only at h
        cases hr2 : topicsPlan r0 mode baseRef rest S1 with
        | none =>
          rw [hr2] at h
          exact Option.noConfusion h
        | some q =>
          obtain ⟨S2, n⟩ := q
          rw [hr2] at h
          simp only [Option.some.injEq, Prod.mk.injEq] at h
          obtain ⟨hS2, hk⟩ := h
          subst hS2
          obtain ⟨r2, g1, g2, g3⟩ := (ih S1 r' h2).2 S2 n hr2
          refine ⟨r2, ?_, g2, ?_⟩
          · unfold applyTopics
            rw [h1]
            exact g1
          · rw [g3, h3]
            omega

/-- With vendoring disabled (`TOOL_REPO` empty) and pushes disabled,
a pipeline run whose preconditions hold is exactly the topic loop run
from the tip reset to the base commit. -/
theorem runPipeline_reduce (e : PipeEnv) (g : Gitenv) (v : VendorEnv) (r : Repo)
    (hclean : trimStr e.statusOut = "") (hfetch : e.fetchAllCode = 0)
    (hv : v.toolRepo = "") (hp : e.push = false) {b : Nat}
    (hb : r.resolve e.baseRef = some b) :
    runPipeline e g v r = applyTopics g e.mode e.baseRef e.topics (r.setHead b) := by
  unfold runPipeline
  rw [if_neg (by rw [hclean]; simp), if_neg (by rw [hfetch]; simp), hb]
  dsimp only
  have hvend : vendorToolRepo v (r.setHead b) = Except.ok (r.setHead b, false) := by
    unfold vendorToolRepo
    rw [if_pos hv]
  rw [hvend]
  dsimp only
  have hpw : pushWorking e (r.setHead b) false = Except.ok (r.setHead b) := by
    unfold pushWorking
    rw [if_neg (by rw [hp]; simp)]
  rw [hpw]
  dsimp only
  have hsh : (r.setHead b).setHead (r.setHead b).head = r.setHead b := rfl
  rw [hsh]
  cases hx : applyTopics g e.mode e.baseRef e.topics (r.setHead b) with
  | error err => rfl
  | ok r5 =>
    dsimp only
    unfold pushInteg
    rw [if_neg (by rw [hp]; simp)]

/-- Claim C3 (amended): a second pipeline run does NOT detect the
previous run's work — it resets the integration branch back to the
working tip, discarding the first run's commits, and re-applies every
topic, making exactly the same decisions as the first run (they depend
only on the base and the original commits).  With vendoring and pushes
disabled and conflict-free oracles, the second run therefore succeeds
and creates exactly as many new commits as the first run did — not
zero, unless the first run itself created none.  Topics are skipped
only by the per-run gates against the freshly reset tip (ancestry for
merge/pick, empty diff for squash). -/
theorem pipeline_rerun_same_count (e : PipeEnv) (g : Gitenv) (v : VendorEnv) (r r1 : Repo)
    (hg : g.conflictFree) (hv : v.toolRepo = "") (hp : e.push = false)
    (hrefs : refsBounded r)
    (h1 : runPipeline e g v r = Except.ok r1) :
    ∃ r2, runPipeline e g v r1 = Except.ok r2 ∧
      r.commits.length ≤ r1.commits.length ∧
      r1.commits.length ≤ r2.commits.length ∧
      r2.commits.length - r1.commits.length = r1.commits.length - r.commits.length := by
  have hclean : trimStr e.statusOut = "" := by
    by_contra hc
    unfold runPipeline at h1
    rw [if_pos hc] at h1
    exact Except.noConfusion h1
  have hfetch : e.fetchAllCode = 0 := by
    by_contra hc
    unfold runPipeline at h1
    rw [if_neg (by rw [hclean]; simp), if_pos hc] at h1
    exact Except.noConfusion h1
  obtain ⟨b, hb⟩ : ∃ b, r.resolve e.baseRef = some b := by
    cases hres : r.resolve e.baseRef with
    | none =>
      unfold runPipeline at h1
      rw [if_neg (by rw [hclean]; simp), if_neg (by rw [hfetch]; simp), hres] at h1
      exact Except.noConfusion h1
    | some b => exact ⟨b, rfl⟩
  have hbn : b < r.commits.length := resolve_lt hrefs hb
  rw [runPipeline_reduce e g v r hclean hfetch hv hp hb] at h1
  have hinv0 : Inv r (fun a => isAncestor r a b) (r.setHead b) :=
    ⟨extends_setHead_self r b, hbn, fun a _ => isAncestor_setHead r b a b⟩
  have hfold := applyTopics_plan g hg r hrefs e.mode e.baseRef e.topics
      (fun a => isAncestor r a b) (r.setHead b) hinv0
  cases hplan : topicsPlan r e.mode e.baseRef e.topics (fun a => isAncestor r a b) with
  | none =>
    obtain ⟨err, herr⟩ := hfold.1 hplan
    rw [herr] at h1
    exact Except.noConfusion h1
  | some pair =>
    obtain ⟨S', k⟩ := pair
    obtain ⟨r1', ha1, hinv1, hlen1⟩ := hfold.2 S' k hplan
    rw [ha1] at h1
    have hr1 : r1' = r1 := by
      injection h1 with hx
    rw [hr1] at hinv1 hlen1
    have hlen1' : r1.commits.length = r.commits.length + k := hlen1
    have hext01 : Extends r r1 := hinv1.1
    have hrefs1 : refsBounded r1 := refsBounded_ext hext01 hrefs
    have hb1 : r1.resolve e.baseRef = some b := by
      rw [resolve_ext hext01]
      exact hb
    have hinv0' : Inv r (fun a => isAncestor r a b) (r1.setHead b) := by
      refine ⟨extends_setHead r r1 b hext01, Nat.lt_of_lt_of_le hbn hext01.1, ?_⟩
      intro a _
      show isAncestor (r1.setHead b) a b = isAncestor r a b
      rw [isAncestor_setHead r1 b a b]
      exact isAncestor_ext hext01 hbn
    have hfold2 := applyTopics_plan g hg r hrefs e.mode e.baseRef e.topics
        (fun a => isAncestor r a b) (r1.setHead b) hinv0'
    obtain ⟨r2, ha2, hinv2, hlen2⟩ := hfold2.2 S' k hplan
    have hlen2' : r2.commits.length = r1.commits.length + k := hlen2
    refine ⟨r2, ?_, by omega, by omega, by omega⟩
    rw [runPipeline_reduce e g v r1 hclean hfetch hv hp hb1]
    exact ha2

/-- Vendor environment with vendoring disabled (`TOOL_REPO` empty). -/
def emptyVendorEnv : VendorEnv :=
  { toolRepo := ""
    toolRef := "HEAD"
    toolDir := "tiramiss"
    cloneCode := 0
    cloneErr := ""
    fetchCode := 0
    checkoutCode := 0
    checkoutErr := ""
    vendTreeFetched := fun t => t
    vendTreeClone := fun t => t }

/-- Pipeline environment for the rerun example: pick mode, one topic,
pushes disabled, everything external succeeding. -/
def rerunPipeEnv : PipeEnv :=
  { quietPipeEnv with mode := Mode.pick, topics := ["t"], baseRef := "base" }

/-- The repository state after the first pick-mode pipeline run on
`pickRepo`: the two topic commits have been replayed as commits 3 and
4 onto the base. -/
def rerunRepo1 : Repo :=
  { commits :=
      [ { parents := [], tree := 0, summary := "root", body := [] }
      , { parents := [0], tree := 1, summary := "A", body := [] }
      , { parents := [1], tree := 2, summary := "B", body := [] }
      , { parents := [0], tree := 1, summary := "A", body := [trailer 1] }
      , { parents := [3], tree := 2, summary := "B", body := [trailer 2] } ]
    refs := [("base", 0), ("t", 2)]
    head := 4 }

/-- Claim C3, counterexample: after a successful pick-mode pipeline
run, running the pipeline again with the same topic list, base and
mode creates new commits: the first run ends with 5 commits (2
created by replaying the topic), the second run ends with 7 (2 more),
because each run first resets the integration branch back to the
working tip, after which the previously replayed commits are no
longer ancestors of the tip and the topic is re-applied. -/
theorem pipeline_rerun_creates_commits_cex :
    (runPipeline rerunPipeEnv noConflictEnv emptyVendorEnv pickRepo).map
        (fun r1 => r1.commits.length) = Except.ok 5 ∧
    ((runPipeline rerunPipeEnv noConflictEnv emptyVendorEnv pickRepo).bind
        (fun r1 => runPipeline rerunPipeEnv noConflictEnv emptyVendorEnv r1)).map
        (fun r2 => r2.commits.length) = Except.ok 7 := by
  exact ⟨rfl, rfl⟩

theorem pipeline_rerun_same_count_witness :
    ∃ r2, runPipeline rerunPipeEnv noConflictEnv emptyVendorEnv rerunRepo1 = Except.ok r2 ∧
      pickRepo.commits.length ≤ rerunRepo1.commits.length ∧
      rerunRepo1.commits.length ≤ r2.commits.length ∧
      r2.commits.length - rerunRepo1.commits.length
        = rerunRepo1.commits.length - pickRepo.commits.length := by
  exact pipeline_rerun_same_count rerunPipeEnv noConflictEnv emptyVendorEnv pickRepo rerunRepo1
    ⟨fun _ _ => rfl, fun _ _ => rfl, fun _ _ => rfl⟩ rfl rfl
    (by unfold refsBounded; decide) rfl

end Tiramiss
